import Mathlib

/-!
# Histogram binners of `binner.h`

A shallow embedding of the classes of `src/binner.h` (`TBinnerND`,
`TBinner2D<N>` and `TMultiBinner<N>`) and theorems about them.

Conventions of the embedding.

* A C++ `double` that holds a finite value is the rational `ℚ` it denotes.  A
  non-finite `double` (`±inf`, `NaN`) is `none` in an `Option ℚ`.  Non-finite
  values arise from a division by zero, from an overflow and from `log` of a
  non-positive number.
* The classes are embedded in exact arithmetic: `+`, `-`, `*` and `/` of doubles
  are the operations of `ℚ`, without rounding.  The theorems on this embedding
  hold of the program in exact arithmetic.
* The namespace `Fp` embeds `TBinnerND` a second time with the arithmetic of the
  program: every operation on doubles gives the double nearest to the exact
  result (IEEE 754 binary64, round to nearest, ties to even).  The inputs of
  these functions are rationals that are doubles.
* The ascii file of `TBinner2D` holds the numbers that its text denotes:
  `operator<<` writes a double with 6 significant digits (`print6`).  The
  ascii lines of `TBinnerND` hold the doubles handed to the stream.
* A C++ `unsigned int` is a `Nat` below `2 ^ 32`.
* An operation whose C++ behaviour is undefined (a cast of an unrepresentable
  value, an access outside an array) yields `none`.
* `log` of `<math.h>` is a parameter `log : ℚ → ℚ`, used on positive arguments.
* A shared pointer to a `TBinner2D` is the address of the accumulator in the list
  of the accumulators that exist.
-/

namespace Binner

/-! ## Scalars -/

/-- The number of values of an `unsigned int`. -/
def UINT_RANGE : Nat := 2 ^ 32

/-- Array read `xs[i]` of a `double` array, the list holding the entries of the
array; the sources read below the length of the array, and a read past the end
of the list gives 0. -/
def rd (xs : List ℚ) (i : Nat) : ℚ := xs.getD i 0

/-- Array read `xs[i]` of an `unsigned int` array, with the convention of `rd`. -/
def rdu (xs : List Nat) (i : Nat) : Nat := xs.getD i 0

/-- Division `x / y` of doubles in exact arithmetic: a zero divisor gives a
non-finite result. -/
def fdiv (x y : ℚ) : Option ℚ := if y = 0 then none else some (x / y)

/-- Truncation toward zero, the rounding of a floating-to-integer conversion. -/
def trunc (x : ℚ) : Int := if 0 ≤ x then ⌊x⌋ else ⌈x⌉

/-- The cast `(unsigned int) x` of a finite double: the truncated value when it
is representable, undefined otherwise. -/
def to_uint (x : ℚ) : Option Nat :=
  if 0 ≤ trunc x ∧ trunc x < (UINT_RANGE : Int) then some (trunc x).toNat else none

/-- The expression `(unsigned int)(x / y)` in exact arithmetic; a non-finite
quotient has no defined conversion. -/
def cast_quot (x y : ℚ) : Option Nat := (fdiv x y).bind to_uint

/-- Collect a list of results, undefined as soon as one of them is. -/
def all_defined {α : Type} : List (Option α) → Option (List α)
  | [] => some []
  | none :: _ => none
  | some a :: r => (all_defined r).map (fun l => a :: l)

/-- The call `log(x)` on a finite double: finite exactly for positive `x`
(`log(0)` is `-inf` and the log of a negative number is `NaN`). -/
def flog (log : ℚ → ℚ) (x : ℚ) : Option ℚ := if 0 < x then some (log x) else none

/-! ## Rounding -/

/-- Rounding of a rational to the nearest integer, a tie going to the even
integer. -/
def round_even (x : ℚ) : Int :=
  if x - ⌊x⌋ < 1 / 2 then ⌊x⌋
  else if 1 / 2 < x - ⌊x⌋ then ⌊x⌋ + 1
  else if ⌊x⌋ % 2 = 0 then ⌊x⌋ else ⌊x⌋ + 1

/-- The exponent of the spacing of the doubles around `x`: 52 below the binary
exponent of `x`, which is at least `-1022` (below it the doubles are
subnormal, with the spacing `2 ^ (-1074)`). -/
def ulp_exponent (x : ℚ) : Int := max (Int.log 2 |x|) (-1022) - 52

/-- The double nearest to the rational `x`, a tie going to the double with the
even significand; `none` when the rounded value is not below `2 ^ 1024` in
magnitude, which is an overflow to infinity. -/
def fl (x : ℚ) : Option ℚ :=
  if x = 0 then some 0
  else if |(round_even (x / (2 : ℚ) ^ ulp_exponent x) : ℚ) * (2 : ℚ) ^ ulp_exponent x|
      < (2 : ℚ) ^ (1024 : Int) then
    some ((round_even (x / (2 : ℚ) ^ ulp_exponent x) : ℚ) * (2 : ℚ) ^ ulp_exponent x)
  else none

/-- The number denoted by the text that `operator<<` writes for a finite double on
a stream with the default format: the value rounded to 6 significant decimal
digits, a tie going to the even digit. -/
def print6 (x : ℚ) : ℚ :=
  if x = 0 then 0
  else (round_even (x / (10 : ℚ) ^ (Int.log 10 |x| - 5)) : ℚ) * (10 : ℚ) ^ (Int.log 10 |x| - 5)

/-! ## The flat N-dimensional array (`ndarray.h`) -/

/-- Modelled from the spec: the class `NDArray<double>` of `ndarray.h`, which is
not part of the sources.  The spec (sections 1, 6 and 9) describes it as an
owned contiguous buffer indexed through a stride table computed from the
per-axis bin counts; `width` holds the bin counts and `element` the buffer. -/
structure NDArray where
  width : List Nat
  element : List ℚ
  deriving DecidableEq, Repr

/-- Modelled from the spec: a multi-index is inside the array when it has one
entry per axis and each entry is below the bin count of its axis. -/
def in_range : List Nat → List Nat → Bool
  | [], [] => true
  | w :: ws, i :: is => decide (i < w) && in_range ws is
  | _, _ => false

/-- Modelled from the spec: conversion of a multi-index to the linear index, the
stride of an axis being the product of the bin counts of the later axes. -/
def flat_index : List Nat → List Nat → Nat
  | _ :: ws, i :: is => i * ws.prod + flat_index ws is
  | _, _ => 0

/-- Modelled from the spec: the multi-index of a linear index, as returned by the
iterator's `get_pos`. -/
def multi_index : List Nat → Nat → List Nat
  | [], _ => []
  | _ :: ws, k => k / ws.prod :: multi_index ws (k % ws.prod)

namespace NDArray

/-- Modelled from the spec: `NDArray(width, N)`, construction from the bin counts
of `N` axes.  The buffer is allocated and not written: its contents are what
the memory held, `garbage k` at the linear index `k`. -/
def create (width : List Nat) (N : Nat) (garbage : Nat → ℚ) : NDArray :=
  { width := width.take N, element := (List.range (width.take N).prod).map garbage }

/-- Modelled from the spec: `get_size()`, the total bin count. -/
def get_size (a : NDArray) : Nat := a.element.length

/-- Modelled from the spec: `get_width(i)`, the bin count of axis `i`. -/
def get_width (a : NDArray) (i : Nat) : Nat := rdu a.width i

/-- Modelled from the spec: `fill(value)`. -/
def fill (a : NDArray) (v : ℚ) : NDArray :=
  { a with element := List.replicate a.element.length v }

/-- Modelled from the spec: `get_element(i)` by linear index, as a value. -/
def get_element (a : NDArray) (i : Nat) : ℚ := rd a.element i

/-- Modelled from the spec: `get_element(index, N)` by multi-index, as a value;
undefined for a multi-index outside the array. -/
def get_at (a : NDArray) (idx : List Nat) : Option ℚ :=
  if in_range a.width idx then a.element[flat_index a.width idx]? else none

/-- Modelled from the spec: the statement `get_element(index, N) += w` in exact
arithmetic; undefined for a multi-index outside the array. -/
def add_at (a : NDArray) (idx : List Nat) (w : ℚ) : Option NDArray :=
  if in_range a.width idx ∧ flat_index a.width idx < a.element.length then
    some { a with element :=
      a.element.set (flat_index a.width idx) (rd a.element (flat_index a.width idx) + w) }
  else none

end NDArray

/-! ## `TBinnerND` -/

/-- The data members of `TBinnerND`. -/
structure TBinnerND where
  bin : NDArray
  min : List ℚ
  max : List ℚ
  dx : List ℚ
  N : Nat
  index_workspace : List Nat
  deriving DecidableEq, Repr

namespace TBinnerND

/-- The method `TBinnerND::clear`. -/
def clear (b : TBinnerND) : TBinnerND := { b with bin := b.bin.fill 0 }

/-- The constructor `TBinnerND::TBinnerND` in exact arithmetic.  A zero bin count
on one of the `N` axes makes the bin width non-finite; the grid is allocated
with the contents `garbage` and then cleared; the freshly allocated workspace
is modelled as zeros. -/
def create (_min _max : List ℚ) (width : List Nat) (_N : Nat) (garbage : Nat → ℚ) :
    Option TBinnerND :=
  (all_defined ((List.range _N).map
      (fun i => fdiv (rd _max i - rd _min i) (rdu width i)))).map
    (fun dx => clear
      { bin := NDArray.create width _N garbage
        min := (List.range _N).map (rd _min)
        max := (List.range _N).map (rd _max)
        dx := dx
        N := _N
        index_workspace := List.replicate _N 0 })

/-- The bounds check of `add_point`: true when some coordinate lies outside
the closed range of its axis, in which case the point is dropped. -/
def out_of_bounds (b : TBinnerND) (pos : List ℚ) : Bool :=
  (List.range b.N).any (fun i => decide (rd pos i < rd b.min i) || decide (rd pos i > rd b.max i))

/-- The loop of `add_point` that fills `index_workspace`. -/
def bin_index (b : TBinnerND) (pos : List ℚ) : Option (List Nat) :=
  all_defined ((List.range b.N).map
    (fun i => cast_quot (rd pos i - rd b.min i) (rd b.dx i)))

/-- The method `TBinnerND::add_point`. -/
def add_point (b : TBinnerND) (pos : List ℚ) (weight : ℚ) : Option TBinnerND :=
  if out_of_bounds b pos then some b
  else
    (bin_index b pos).bind fun idx =>
      (b.bin.add_at idx weight).map fun bin' =>
        { b with index_workspace := idx, bin := bin' }

/-- The invariant of a `TBinnerND` constructed in exact arithmetic: one bin
count per axis, each
at least one and an `unsigned int`; a grid of as many bins as the product of
the bin counts; on each axis the upper bound above the lower bound and the bin
width equal to the range divided by the bin count. -/
structure Valid (b : TBinnerND) : Prop where
  width_len : b.bin.width.length = b.N
  size : b.bin.element.length = b.bin.width.prod
  count_pos : ∀ i < b.N, 1 ≤ rdu b.bin.width i
  count_lt : ∀ i < b.N, rdu b.bin.width i < UINT_RANGE
  ordered : ∀ i < b.N, rd b.min i < rd b.max i
  dx_eq : ∀ i < b.N, rd b.dx i = (rd b.max i - rd b.min i) / (rdu b.bin.width i : ℚ)

end TBinnerND

/-- The loop `if(bin > norm) norm = bin` of `normalize` over a run of bins,
started from the current value of `norm`. -/
def peak_scan (xs : List ℚ) (norm : ℚ) : ℚ :=
  xs.foldl (fun n x => if x > n then x else n) norm

/-- The loop `norm += bin` of `normalize` over a run of bins, in exact
arithmetic. -/
def sum_scan (xs : List ℚ) (norm : ℚ) : ℚ :=
  xs.foldl (fun n x => n + x) norm

/-- The loop `bin /= norm` over a run of bins, in exact arithmetic; a zero `norm`
gives non-finite bins. -/
def div_scan (xs : List ℚ) (norm : ℚ) : Option (List ℚ) :=
  all_defined (xs.map (fun x => fdiv x norm))

namespace TBinnerND

/-- The value of `norm` that `TBinnerND::normalize` divides by. -/
def norm_of (b : TBinnerND) (to_peak : Bool) : ℚ :=
  if to_peak then peak_scan b.bin.element 0 else sum_scan b.bin.element 0

/-- The method `TBinnerND::normalize`. -/
def normalize (b : TBinnerND) (to_peak : Bool) : Option TBinnerND :=
  (div_scan b.bin.element (norm_of b to_peak)).map fun e =>
    { b with bin := { b.bin with element := e } }

end TBinnerND

/-! ## Serialization -/

/-- The test `x < log_bin_min`, where `none` stands for the initial `+inf`. -/
def below (x : ℚ) (log_bin_min : Option ℚ) : Bool :=
  match log_bin_min with
  | none => true
  | some m => decide (x < m)

/-- The scan of `write_to_file` for the smallest bin that is not zero, over a
run of bins, started from the current `log_bin_min` (`none` is `+inf`). -/
def min_scan (xs : List ℚ) (log_bin_min : Option ℚ) : Option ℚ :=
  xs.foldl (fun m x => if x ≠ 0 ∧ below x m = true then some x else m) log_bin_min

/-- The assignment `log_bin_min = log(log_bin_min)`; the log of `+inf` is
`+inf`. -/
def log_of_min (log : ℚ → ℚ) (log_bin_min : Option ℚ) : Option ℚ :=
  log_bin_min.bind (flog log)

/-- One field of the binary file. -/
inductive Field where
  | u32 (n : Nat)
  | f64 (x : Option ℚ)
  deriving DecidableEq, Repr

/-- One line of the ascii file: the tab-separated coordinates, then the value. -/
structure Line where
  coords : List ℚ
  value : Option ℚ
  deriving DecidableEq, Repr

/-- The contents of the file written by `write_to_file`. -/
inductive Output where
  | ascii (lines : List Line)
  | binary (fields : List Field)
  deriving DecidableEq, Repr

namespace TBinnerND

/-- The value of `log_bin_min` after the first block of `write_to_file`. -/
def log_floor (b : TBinnerND) (log : ℚ → ℚ) (log_pdf : Bool) : Option ℚ :=
  if log_pdf then log_of_min log (min_scan b.bin.element none) else none

/-- The statement
`if(log_pdf && (tmp_bin == 0.)) tmp_bin = log_bin_min - 2.; else tmp_bin = log(tmp_bin);`
of both output loops. -/
def out_value (log : ℚ → ℚ) (log_pdf : Bool) (log_bin_min : Option ℚ) (tmp_bin : ℚ) :
    Option ℚ :=
  if log_pdf = true ∧ tmp_bin = 0 then log_bin_min.map (fun l => l - 2) else flog log tmp_bin

/-- The values written for the bins, in iteration order. -/
def out_values (b : TBinnerND) (log : ℚ → ℚ) (log_pdf : Bool) : List (Option ℚ) :=
  (List.range b.bin.get_size).map fun k =>
    out_value log log_pdf (log_floor b log log_pdf) (b.bin.get_element k)

/-- The coordinates written on the ascii line of the bin at linear index `k`. -/
def line_coords (b : TBinnerND) (k : Nat) : List ℚ :=
  (List.range b.N).map fun n =>
    rd b.min 0 + rd b.dx 0 * ((rdu (multi_index b.bin.width k) n : ℚ) + 1 / 2)

/-- The lines of the ascii file, each number being the double handed to the
stream. -/
def ascii_lines (b : TBinnerND) (log : ℚ → ℚ) (log_pdf : Bool) : List Line :=
  (List.range b.bin.get_size).map fun k =>
    { coords := line_coords b k
      value := out_value log log_pdf (log_floor b log log_pdf) (b.bin.get_element k) }

/-- The header record of axis `i` in the binary file. -/
def header_record (b : TBinnerND) (i : Nat) : List Field :=
  [Field.u32 b.N, Field.u32 (b.bin.get_width i), Field.f64 (some (rd b.min i)),
    Field.f64 (some (rd b.max i)), Field.f64 (some (rd b.dx i))]

/-- The header of the binary file. -/
def header (b : TBinnerND) : List Field :=
  ((List.range b.N).map (header_record b)).flatten

/-- The method `TBinnerND::write_to_file`, as the contents of the file. -/
def write_to_file (b : TBinnerND) (log : ℚ → ℚ) (ascii : Bool) (log_pdf : Bool) : Output :=
  if ascii then Output.ascii (ascii_lines b log log_pdf)
  else Output.binary (header b ++ (out_values b log log_pdf).map Field.f64)

end TBinnerND

/-- Modelled from the spec: one parsed header record of the binary format
(section 6), used by a reader of the file; the sources hold no reader. -/
structure AxisRecord where
  dimension_count : Nat
  axis_bin_count : Nat
  lower_bound : ℚ
  upper_bound : ℚ
  bin_width : ℚ
  deriving DecidableEq, Repr

/-- Modelled from the spec: read one header record, five fields in the order of
section 6; the sources hold no reader. -/
def parse_record : List Field → Option (AxisRecord × List Field)
  | Field.u32 n :: Field.u32 c :: Field.f64 (some lo) :: Field.f64 (some hi) ::
      Field.f64 (some w) :: rest => some (⟨n, c, lo, hi, w⟩, rest)
  | _ => none

/-- Modelled from the spec: read `k` header records in sequence; the sources
hold no reader. -/
def parse_records : Nat → List Field → Option (List AxisRecord × List Field)
  | 0, fs => some ([], fs)
  | k + 1, fs =>
    match parse_record fs with
    | none => none
    | some (r, rest) =>
      match parse_records k rest with
      | none => none
      | some (rs, rest') => some (r :: rs, rest')

/-- Modelled from the spec: read the header of a binary file, one record per
axis, the number of axes being the first field of the file; returns the records
and the fields that follow the header.  The sources hold no reader. -/
def parse_header (fs : List Field) : Option (List AxisRecord × List Field) :=
  match fs with
  | Field.u32 n :: _ => parse_records n fs
  | _ => none

/-- Modelled from the spec: the header record that a reader of the binary file
expects for axis `i` of an accumulator (section 6). -/
def axis_record (b : TBinnerND) (i : Nat) : AxisRecord :=
  { dimension_count := b.N
    axis_bin_count := rdu b.bin.width i
    lower_bound := rd b.min i
    upper_bound := rd b.max i
    bin_width := rd b.dx i }

/-! ## `TBinner2D` -/

/-- The data members of `TBinner2D<N>`; the arrays of two entries are pairs and
`bin` is the list of the `width[0]` rows of `width[1]` bins. -/
structure TBinner2D (N : Nat) where
  min : ℚ × ℚ
  max : ℚ × ℚ
  dx : ℚ × ℚ
  width : Nat × Nat
  bin_dim : Nat × Nat
  bin : List (List ℚ)
  deriving DecidableEq, Repr

/-- The read `pos[d]` of a sample of `N` doubles; undefined when `d` is not
below `N`. -/
def coord {N : Nat} (pos : Fin N → ℚ) (d : Nat) : Option ℚ :=
  if h : d < N then some (pos ⟨d, h⟩) else none

/-- The statement `bin[j][k] += w` on the array of rows, in exact arithmetic;
undefined outside the allocated rows. -/
def add_cell (bin : List (List ℚ)) (j k : Nat) (w : ℚ) : Option (List (List ℚ)) :=
  match bin[j]? with
  | none => none
  | some row => if k < row.length then some (bin.set j (row.set k (rd row k + w))) else none

/-- The value of `bin[j][k]`; undefined outside the allocated rows. -/
def cell (bin : List (List ℚ)) (j k : Nat) : Option ℚ :=
  match bin[j]? with
  | none => none
  | some row => row[k]?

namespace TBinner2D

variable {N : Nat}

/-- The method `TBinner2D::clear`. -/
def clear (b : TBinner2D N) : TBinner2D N :=
  { b with bin := List.replicate b.width.1 (List.replicate b.width.2 0) }

/-- The constructor `TBinner2D::TBinner2D` in exact arithmetic.  The assertion
`_bin_dim[i] < N` aborts the construction, and a zero bin count makes the bin
width non-finite; the rows are allocated with the contents `garbage` and then
cleared. -/
def create (_min _max : ℚ × ℚ) (_width _bin_dim : Nat × Nat) (garbage : Nat → Nat → ℚ) :
    Option (TBinner2D N) :=
  if _bin_dim.1 < N then
    (fdiv (_max.1 - _min.1) _width.1).bind fun dx0 =>
      if _bin_dim.2 < N then
        (fdiv (_max.2 - _min.2) _width.2).map fun dx1 =>
          clear { min := _min, max := _max, dx := (dx0, dx1), width := _width,
                  bin_dim := _bin_dim,
                  bin := (List.range _width.1).map fun j =>
                    (List.range _width.2).map fun k => garbage j k }
      else none
  else none

/-- The method `TBinner2D::add_point`. -/
def add_point (b : TBinner2D N) (pos : Fin N → ℚ) (weight : ℚ) : Option (TBinner2D N) :=
  (coord pos b.bin_dim.1).bind fun p0 =>
    if p0 < b.min.1 ∨ p0 > b.max.1 then some b
    else
      (coord pos b.bin_dim.2).bind fun p1 =>
        if p1 < b.min.2 ∨ p1 > b.max.2 then some b
        else
          (cast_quot (p0 - b.min.1) b.dx.1).bind fun i0 =>
            (cast_quot (p1 - b.min.2) b.dx.2).bind fun i1 =>
              (add_cell b.bin i0 i1 weight).map fun bin' => { b with bin := bin' }

/-- The value of `norm` that `TBinner2D::normalize` divides by. -/
def norm_of (b : TBinner2D N) (to_peak : Bool) : ℚ :=
  if to_peak then b.bin.foldl (fun n row => peak_scan row n) 0
  else b.bin.foldl (fun n row => sum_scan row n) 0

/-- The method `TBinner2D::normalize`; its loops over `j < width[0]` and
`k < width[1]` visit the rows of `bin` in order. -/
def normalize (b : TBinner2D N) (to_peak : Bool) : Option (TBinner2D N) :=
  (all_defined (b.bin.map fun row => div_scan row (norm_of b to_peak))).map fun rows =>
    { b with bin := rows }

/-- The value of `log_bin_min` after the first block of `write_to_file`. -/
def log_floor (b : TBinner2D N) (log : ℚ → ℚ) (log_pdf : Bool) : Option ℚ :=
  if log_pdf then log_of_min log (b.bin.foldl (fun m row => min_scan row m) none) else none

/-- The statement
`if(!log_pdf) tmp_bin = bin[j][k]; else if(bin[j][k] == 0.) tmp_bin = log_bin_min - 2.; else tmp_bin = log(bin[j][k]);`
of both output loops. -/
def out_value (log : ℚ → ℚ) (log_pdf : Bool) (log_bin_min : Option ℚ) (x : ℚ) : Option ℚ :=
  if log_pdf = false then some x
  else if x = 0 then log_bin_min.map (fun l => l - 2)
  else flog log x

/-- The values written for the bins, in iteration order. -/
def out_values (b : TBinner2D N) (log : ℚ → ℚ) (log_pdf : Bool) : List (Option ℚ) :=
  ((List.range b.width.1).map fun (j : Nat) =>
    (List.range b.width.2).map fun (k : Nat) =>
      out_value log log_pdf (log_floor b log log_pdf) (rd (b.bin.getD j []) k)).flatten

/-- The lines of the ascii file, each number being the one that its text
denotes: the stream writes the two coordinates and the value with 6
significant digits.  The coordinates are computed in exact arithmetic. -/
def ascii_lines (b : TBinner2D N) (log : ℚ → ℚ) (log_pdf : Bool) : List Line :=
  ((List.range b.width.1).map fun (j : Nat) =>
    (List.range b.width.2).map fun (k : Nat) =>
      { coords := [print6 (b.min.1 + b.dx.1 * ((j : ℚ) + 1 / 2)),
          print6 (b.min.2 + b.dx.2 * ((k : ℚ) + 1 / 2))]
        value := (out_value log log_pdf (log_floor b log log_pdf)
          (rd (b.bin.getD j []) k)).map print6 : Line }).flatten

/-- The header of the binary file: for each of the two axes the bin count,
the bounds and the bin width. -/
def header (b : TBinner2D N) : List Field :=
  [Field.u32 b.width.1, Field.f64 (some b.min.1), Field.f64 (some b.max.1),
    Field.f64 (some b.dx.1),
   Field.u32 b.width.2, Field.f64 (some b.min.2), Field.f64 (some b.max.2),
    Field.f64 (some b.dx.2)]

/-- The method `TBinner2D::write_to_file`, as the contents of the file. -/
def write_to_file (b : TBinner2D N) (log : ℚ → ℚ) (ascii : Bool) (log_pdf : Bool) : Output :=
  if ascii then Output.ascii (ascii_lines b log log_pdf)
  else Output.binary (header b ++ (out_values b log log_pdf).map Field.f64)

end TBinner2D

/-! ## The 2-axis `TBinnerND` of a `TBinner2D` -/

namespace TBinner2D

variable {N : Nat}

/-- The shape of the grid of a constructed `TBinner2D`: `width[0]` rows of
`width[1]` bins. -/
def Shaped (b : TBinner2D N) : Prop :=
  b.bin.length = b.width.1 ∧ ∀ row ∈ b.bin, row.length = b.width.2

/-- The 2-axis `TBinnerND` with the bounds, bin widths and bin counts of a
`TBinner2D`; its grid holds the bin `(j, k)` of the 2-D grid at the multi-index
`(j, k)`.  The contents `ws` of the index workspace are free. -/
def to_nd (b : TBinner2D N) (ws : List Nat) : TBinnerND :=
  { bin := { width := [b.width.1, b.width.2], element := b.bin.flatten }
    min := [b.min.1, b.min.2]
    max := [b.max.1, b.max.2]
    dx := [b.dx.1, b.dx.2]
    N := 2
    index_workspace := ws }

end TBinner2D

/-! ## Sequences of points -/

namespace TBinnerND

/-- Successive calls of `TBinnerND::add_point`, one for each point and weight of
the sequence, in order. -/
def add_points : TBinnerND → List (List ℚ × ℚ) → Option TBinnerND
  | b, [] => some b
  | b, pw :: rest =>
    match b.add_point pw.1 pw.2 with
    | none => none
    | some b' => add_points b' rest

end TBinnerND

namespace TBinner2D

variable {N : Nat}

/-- Successive calls of `TBinner2D::add_point`, one for each sample and weight of
the sequence, in order. -/
def add_points : TBinner2D N → List ((Fin N → ℚ) × ℚ) → Option (TBinner2D N)
  | b, [] => some b
  | b, pw :: rest =>
    match b.add_point pw.1 pw.2 with
    | none => none
    | some b' => add_points b' rest

/-- The bounds check of `TBinner2D::add_point` on the two selected coordinates:
true when one of them lies outside the closed range of its axis. -/
def out_of_bounds (b : TBinner2D N) (pos : Fin N → ℚ) : Bool :=
  match coord pos b.bin_dim.1, coord pos b.bin_dim.2 with
  | some p0, some p1 =>
    decide (p0 < b.min.1) || decide (p0 > b.max.1) || decide (p1 < b.min.2) ||
      decide (p1 > b.max.2)
  | _, _ => false

/-- The invariant of a `TBinner2D` constructed in exact arithmetic: a grid of
`width[0]` rows of
`width[1]` bins; selected axes below `N`; bin counts at least one and
`unsigned int`; on each axis the upper bound above the lower bound and the bin
width equal to the range divided by the bin count. -/
structure Valid (b : TBinner2D N) : Prop where
  shaped : b.Shaped
  axes : b.bin_dim.1 < N ∧ b.bin_dim.2 < N
  count_pos : 1 ≤ b.width.1 ∧ 1 ≤ b.width.2
  count_lt : b.width.1 < UINT_RANGE ∧ b.width.2 < UINT_RANGE
  ordered : b.min.1 < b.max.1 ∧ b.min.2 < b.max.2
  dx_eq : b.dx.1 = (b.max.1 - b.min.1) / (b.width.1 : ℚ) ∧
    b.dx.2 = (b.max.2 - b.min.2) / (b.width.2 : ℚ)

end TBinner2D

/-! ## `TMultiBinner` -/

/-- The 2-D accumulators that exist, each at its address: the address is the
position in the list.  A shared pointer to an accumulator is its address. -/
abbrev Heap (N : Nat) := List (TBinner2D N)

/-- The data member of `TMultiBinner<N>`: the vector of shared pointers. -/
structure TMultiBinner (N : Nat) where
  binner_arr : List Nat
  deriving DecidableEq, Repr

namespace TMultiBinner

variable {N : Nat}

/-- The constructor `TMultiBinner::TMultiBinner`: no member. -/
def create : TMultiBinner N := { binner_arr := [] }

/-- The loop of `operator()` over the members that remain: each member in turn
receives `add_point(pos, weight)`; undefined when a pointer does not address an
accumulator or the call on the member is undefined. -/
def broadcast_loop : List Nat → Heap N → (Fin N → ℚ) → ℚ → Option (Heap N)
  | [], heap, _, _ => some heap
  | a :: rest, heap, pos, weight =>
    match heap[a]? with
    | none => none
    | some b =>
      match b.add_point pos weight with
      | none => none
      | some b' => broadcast_loop rest (heap.set a b') pos weight

/-- The method `TMultiBinner::operator()`: the collector and the accumulators
after the call. -/
def call (m : TMultiBinner N) (heap : Heap N) (pos : Fin N → ℚ) (weight : ℚ) :
    Option (TMultiBinner N × Heap N) :=
  (broadcast_loop m.binner_arr heap pos weight).map fun heap' => (m, heap')

/-- The loop of `clear` over the members that remain. -/
def clear_loop : List Nat → Heap N → Option (Heap N)
  | [], heap => some heap
  | a :: rest, heap =>
    match heap[a]? with
    | none => none
    | some b => clear_loop rest (heap.set a b.clear)

/-- The method `TMultiBinner::clear`. -/
def clear (m : TMultiBinner N) (heap : Heap N) : Option (TMultiBinner N × Heap N) :=
  (clear_loop m.binner_arr heap).map fun heap' => (m, heap')

/-- The method `TMultiBinner::add_binner`, for a shared pointer and for a raw
pointer alike: the pointer is pushed at the back of the vector. -/
def add_binner (m : TMultiBinner N) (binner : Nat) : TMultiBinner N :=
  { binner_arr := m.binner_arr ++ [binner] }

/-- The method `TMultiBinner::get_binner`: the assertion `i < binner_arr.size()`
and the checked access `at(i)` fail for an index that is not below the number
of members. -/
def get_binner (m : TMultiBinner N) (i : Nat) : Option Nat :=
  if i < m.binner_arr.length then m.binner_arr[i]? else none

/-- The method `TMultiBinner::get_num_binners`: the size of the vector, converted
to the `unsigned int` that is returned. -/
def get_num_binners (m : TMultiBinner N) : Nat := m.binner_arr.length % UINT_RANGE

end TMultiBinner

/-! ## Scaled grids -/

/-- The effect of `TBinnerND::add_point` on the grid `a` of an accumulator that has
the bounds and bin widths of `b`: a dropped point leaves the grid, an accepted
point adds its weight at its multi-index. -/
def TBinnerND.grid_step (b : TBinnerND) (a : NDArray) (pw : List ℚ × ℚ) : Option NDArray :=
  if b.out_of_bounds pw.1 then some a
  else (b.bin_index pw.1).bind fun idx => a.add_at idx pw.2

/-- The bin that `TBinner2D::add_point` selects for a sample: `none` when the call
is undefined before the write, `some none` when the sample is dropped by the
bounds check, `some (some (i0, i1))` when it is accepted for the bin
`bin[i0][i1]`. -/
def TBinner2D.target {N : Nat} (b : TBinner2D N) (pos : Fin N → ℚ) :
    Option (Option (Nat × Nat)) :=
  (coord pos b.bin_dim.1).bind fun p0 =>
    if p0 < b.min.1 ∨ p0 > b.max.1 then some none
    else
      (coord pos b.bin_dim.2).bind fun p1 =>
        if p1 < b.min.2 ∨ p1 > b.max.2 then some none
        else
          (cast_quot (p0 - b.min.1) b.dx.1).bind fun i0 =>
            (cast_quot (p1 - b.min.2) b.dx.2).map fun i1 => some (i0, i1)

/-! ## `TBinnerND` with the arithmetic of doubles -/

namespace Fp

/-- The sum `x + y` of two doubles. -/
def add (x y : ℚ) : Option ℚ := fl (x + y)

/-- The difference `x - y` of two doubles. -/
def sub (x y : ℚ) : Option ℚ := fl (x - y)

/-- The quotient `x / y` of two doubles; a zero divisor gives a non-finite
result. -/
def div (x y : ℚ) : Option ℚ := if y = 0 then none else fl (x / y)

/-- The expression `(unsigned int)((p - lo) / dx)` of `add_point`. -/
def cast_quot (p lo dx : ℚ) : Option Nat :=
  (sub p lo).bind fun d => (div d dx).bind to_uint

/-- Modelled from the spec: the statement `get_element(index, N) += w` on doubles;
undefined for a multi-index outside the array and for a sum that is not
finite. -/
def add_at (a : NDArray) (idx : List Nat) (w : ℚ) : Option NDArray :=
  if in_range a.width idx ∧ flat_index a.width idx < a.element.length then
    (add (rd a.element (flat_index a.width idx)) w).map fun v =>
      { a with element := a.element.set (flat_index a.width idx) v }
  else none

/-- The constructor `TBinnerND::TBinnerND`: the bin width of axis `i` is the
double `(max[i] - min[i]) / (double) width[i]`; the grid is allocated with the
contents `garbage` and then cleared. -/
def create (_min _max : List ℚ) (width : List Nat) (_N : Nat) (garbage : Nat → ℚ) :
    Option TBinnerND :=
  (all_defined ((List.range _N).map
      (fun i => (sub (rd _max i) (rd _min i)).bind fun r => div r (rdu width i)))).map
    (fun dx => TBinnerND.clear
      { bin := NDArray.create width _N garbage
        min := (List.range _N).map (rd _min)
        max := (List.range _N).map (rd _max)
        dx := dx
        N := _N
        index_workspace := List.replicate _N 0 })

/-- The loop of `add_point` that fills `index_workspace`. -/
def bin_index (b : TBinnerND) (pos : List ℚ) : Option (List Nat) :=
  all_defined ((List.range b.N).map
    (fun i => cast_quot (rd pos i) (rd b.min i) (rd b.dx i)))

/-- The method `TBinnerND::add_point`; the bounds check compares doubles and is
that of the exact embedding. -/
def add_point (b : TBinnerND) (pos : List ℚ) (weight : ℚ) : Option TBinnerND :=
  if b.out_of_bounds pos then some b
  else
    (bin_index b pos).bind fun idx =>
      (add_at b.bin idx weight).map fun bin' =>
        { b with index_workspace := idx, bin := bin' }

/-- Successive calls of `TBinnerND::add_point`, one for each point and weight of
the sequence, in order. -/
def add_points : TBinnerND → List (List ℚ × ℚ) → Option TBinnerND
  | b, [] => some b
  | b, pw :: rest =>
    match add_point b pw.1 pw.2 with
    | none => none
    | some b' => add_points b' rest

/-- The loop `norm += bin` of `normalize` over a run of bins. -/
def sum_scan (xs : List ℚ) (norm : ℚ) : Option ℚ :=
  xs.foldl (fun n x => n.bind fun m => add m x) (some norm)

/-- The loop `bin /= norm` over a run of bins. -/
def div_scan (xs : List ℚ) (norm : ℚ) : Option (List ℚ) :=
  all_defined (xs.map (fun x => div x norm))

/-- The method `TBinnerND::normalize`; the peak is found by comparisons of doubles
and is that of the exact embedding.  Undefined as soon as a value is not
finite. -/
def normalize (b : TBinnerND) (to_peak : Bool) : Option TBinnerND :=
  (if to_peak then some (peak_scan b.bin.element 0) else sum_scan b.bin.element 0).bind
    fun norm => (div_scan b.bin.element norm).map fun e =>
      { b with bin := { b.bin with element := e } }

end Fp

/-! ## Example states -/

/-- A constructed 2-axis accumulator: axis 0 is `[0, 1]` in 2 bins, axis 1 is
`[10, 20]` in 3 bins, all bins empty. -/
def grid_2x3 : TBinnerND :=
  { bin := { width := [2, 3], element := [0, 0, 0, 0, 0, 0] }
    min := [0, 10]
    max := [1, 20]
    dx := [1 / 2, 10 / 3]
    N := 2
    index_workspace := [0, 0] }

/-- A 1-axis accumulator on `[0, 1]` with 2 bins that hold `-1` and `-2`, as
left by `add_point` with the weights `-1` and `-2`. -/
def grid_negative : TBinnerND :=
  { bin := { width := [2], element := [-1, -2] }
    min := [0]
    max := [1]
    dx := [1 / 2]
    N := 1
    index_workspace := [1] }

/-- A 1-axis accumulator on `[0, 4]` with 4 bins that hold `0, 0, 3, 0`. -/
def grid_0030 : TBinnerND :=
  { bin := { width := [4], element := [0, 0, 3, 0] }
    min := [0]
    max := [4]
    dx := [1]
    N := 1
    index_workspace := [2] }

/-- A 2-D accumulator of the axes 2 and 0 of a 3-dimensional sample space: 2 bins
on `[0, 1]` by 3 bins on `[10, 20]`, holding `1, 0, 0` and `0, 4, 0`. -/
def plane_2x3 : TBinner2D 3 :=
  { min := (0, 10)
    max := (1, 20)
    dx := (1 / 2, 10 / 3)
    width := (2, 3)
    bin_dim := (2, 0)
    bin := [[1, 0, 0], [0, 4, 0]] }

/-- A 1-axis accumulator on `[0, 3]` with 3 bins that hold `-1, 0, 3`, as left
by `add_point` with the weights `-1` and `3`. -/
def grid_m103 : TBinnerND :=
  { bin := { width := [3], element := [-1, 0, 3] }
    min := [0]
    max := [3]
    dx := [1]
    N := 1
    index_workspace := [2] }

/-- A 2-D accumulator of the axis 1, taken twice, of a 3-dimensional sample
space: 1 bin on `[0, 10]` by 1 bin on `[0, 10]`, holding 7. -/
def plane_1x1 : TBinner2D 3 :=
  { min := (0, 0)
    max := (10, 10)
    dx := (10, 10)
    width := (1, 1)
    bin_dim := (1, 1)
    bin := [[7]] }

/-- Three 2-D accumulators of a 3-dimensional sample space, at the addresses 0,
1 and 2: the 2 by 3 plane of the axes 2 and 0, the same plane with all bins
empty, and the 1 by 1 plane. -/
def heap_of_three : Heap 3 :=
  [plane_2x3, { plane_2x3 with bin := [[0, 0, 0], [0, 0, 0]] }, plane_1x1]

/-- A collector of the three accumulators, inserted in the order 2, 0, 1. -/
def collector_of_three : TMultiBinner 3 := { binner_arr := [2, 0, 1] }

/-- The 2 by 3 plane of the axes 2 and 0 with all bins empty. -/
def plane_empty : TBinner2D 3 := { plane_2x3 with bin := [[0, 0, 0], [0, 0, 0]] }

/-- Three points with their weights for the 2 by 3 grid; the second one lies
above the upper bound 20 of axis 1. -/
def points_2d : List (List ℚ × ℚ) :=
  [([3 / 4, 199 / 10], 1 / 2), ([1 / 2, 21], 7), ([1 / 4, 11], 3)]

/-- Two samples with their weights for the 2 by 3 plane; the second one lies
above the upper bound 20 of the axis binned from coordinate 0. -/
def samples_3d : List ((Fin 3 → ℚ) × ℚ) :=
  [(![199 / 10, 5, 3 / 4], 2), (![25, 5, 3 / 4], 7)]

/-- The smallest positive double, `2 ^ (-1074)`, written `5e-324`. -/
def tiny : ℚ := 1 / 2 ^ 1074

/-- A 1-axis accumulator of 1 bin on `[0, 2]` that holds `1e16`, as left by
`add_point` with the weight `1e16`. -/
def grid_big : TBinnerND :=
  { bin := { width := [1], element := [10000000000000000] }
    min := [0]
    max := [2]
    dx := [2]
    N := 1
    index_workspace := [0] }

/-- The 1-axis accumulator that the constructor gives, with the arithmetic of
doubles, for 2 bins on `[0, 4]`. -/
def grid_pair : TBinnerND :=
  { bin := { width := [2], element := [0, 0] }
    min := [0]
    max := [4]
    dx := [2]
    N := 1
    index_workspace := [0] }

/-- The grid of 2 bins on `[0, 4]` with the bins holding `x` and `y` and the
index workspace holding `ws`. -/
def pair_state (x y : ℚ) (ws : List Nat) : TBinnerND :=
  { bin := { width := [2], element := [x, y] }
    min := [0]
    max := [4]
    dx := [2]
    N := 1
    index_workspace := ws }

/-- Four points with their weights for the grid of 2 bins on `[0, 4]`: the weights
1 and 1 go to the bin 1, the weights `1e16` and 1 to the bin 0. -/
def points_big : List (List ℚ × ℚ) :=
  [([3], 1), ([1], 10000000000000000), ([1], 1), ([3], 1)]

/-- A 2-D accumulator of the axes 0 and 1 of a 2-dimensional sample space: 1 bin
on `[0, 1]` by 1 bin on `[0, 1]`, holding 1234567, as left by `add_point` with
that weight. -/
def plane_big : TBinner2D 2 :=
  { min := (0, 0)
    max := (1, 1)
    dx := (1, 1)
    width := (1, 1)
    bin_dim := (0, 1)
    bin := [[1234567]] }

/-! ## Lemmas on the flat array -/

theorem in_range_length {ws is : List Nat} (h : in_range ws is = true) :
    is.length = ws.length := by
  induction ws generalizing is with
  | nil => cases is <;> simp_all [in_range]
  | cons w ws ih =>
    cases is with
    | nil => simp [in_range] at h
    | cons i is =>
      simp only [in_range, Bool.and_eq_true, decide_eq_true_eq] at h
      simp [ih h.2]

theorem flat_index_lt {ws is : List Nat} (h : in_range ws is = true) :
    flat_index ws is < ws.prod := by
  induction ws generalizing is with
  | nil => cases is <;> simp_all [in_range, flat_index]
  | cons w ws ih =>
    cases is with
    | nil => simp [in_range] at h
    | cons i is =>
      simp only [in_range, Bool.and_eq_true, decide_eq_true_eq] at h
      have h2 := ih h.2
      simp only [flat_index, List.prod_cons]
      calc i * ws.prod + flat_index ws is < i * ws.prod + ws.prod := by omega
        _ = (i + 1) * ws.prod := by ring
        _ ≤ w * ws.prod := Nat.mul_le_mul_right _ h.1

theorem flat_index_inj {ws is js : List Nat} (hi : in_range ws is = true)
    (hj : in_range ws js = true) (h : flat_index ws is = flat_index ws js) : is = js := by
  induction ws generalizing is js with
  | nil => cases is <;> cases js <;> simp_all [in_range]
  | cons w ws ih =>
    cases is with
    | nil => simp [in_range] at hi
    | cons i is =>
      cases js with
      | nil => simp [in_range] at hj
      | cons j js =>
        simp only [in_range, Bool.and_eq_true, decide_eq_true_eq] at hi hj
        simp only [flat_index] at h
        have h1 := flat_index_lt hi.2
        have h2 := flat_index_lt hj.2
        have hP : 0 < ws.prod := by omega
        have hq : i = j := by
          have e1 : (i * ws.prod + flat_index ws is) / ws.prod = i := by
            rw [Nat.add_comm, Nat.add_mul_div_right _ _ hP, Nat.div_eq_of_lt h1]; simp
          have e2 : (j * ws.prod + flat_index ws js) / ws.prod = j := by
            rw [Nat.add_comm, Nat.add_mul_div_right _ _ hP, Nat.div_eq_of_lt h2]; simp
          rw [← e1, ← e2, h]
        subst hq
        have hr : flat_index ws is = flat_index ws js := by omega
        rw [ih hi.2 hj.2 hr]

theorem in_range_iff {ws is : List Nat} :
    in_range ws is = true ↔ is.length = ws.length ∧ ∀ i < ws.length, rdu is i < rdu ws i := by
  induction ws generalizing is with
  | nil => cases is <;> simp [in_range]
  | cons w ws ih =>
    cases is with
    | nil => simp [in_range]
    | cons i is =>
      simp only [in_range, Bool.and_eq_true, decide_eq_true_eq, ih, List.length_cons,
        Nat.add_right_cancel_iff]
      constructor
      · rintro ⟨h0, hl, hr⟩
        refine ⟨hl, fun k hk => ?_⟩
        cases k with
        | zero => simpa [rdu] using h0
        | succ k => simpa [rdu] using hr k (by omega)
      · rintro ⟨hl, hr⟩
        refine ⟨by simpa [rdu] using hr 0 (by omega), hl, fun k hk => ?_⟩
        simpa [rdu] using hr (k + 1) (by omega)

theorem all_defined_map_some {α β : Type} (l : List α) (f : α → Option β) (g : α → β)
    (h : ∀ a ∈ l, f a = some (g a)) : all_defined (l.map f) = some (l.map g) := by
  induction l with
  | nil => rfl
  | cons a l ih =>
    have ha := h a (List.mem_cons_self a l)
    have hl := ih (fun x hx => h x (List.mem_cons_of_mem a hx))
    simp [all_defined, ha, hl]

theorem rdu_map_range (N : Nat) (g : Nat → Nat) (i : Nat) (hi : i < N) :
    rdu ((List.range N).map g) i = g i := by
  simp [rdu, List.getD_eq_getElem?_getD, hi]

theorem cast_quot_eq {x y : ℚ} {W : Nat} (hx : 0 ≤ x) (hy : 0 < y) (hW : x / y < W)
    (hU : W ≤ UINT_RANGE) :
    cast_quot x y = some ⌊x / y⌋.toNat ∧ ⌊x / y⌋.toNat < W := by
  have hq : 0 ≤ x / y := div_nonneg hx hy.le
  have hf : 0 ≤ ⌊x / y⌋ := Int.floor_nonneg.mpr hq
  have hlt : ⌊x / y⌋ < (W : Int) := Int.floor_lt.mpr (by exact_mod_cast hW)
  have hU2 : ⌊x / y⌋ < (UINT_RANGE : Int) := lt_of_lt_of_le hlt (by exact_mod_cast hU)
  refine ⟨?_, by omega⟩
  simp [cast_quot, fdiv, hy.ne.symm, to_uint, trunc, hq, hf, hU2]

theorem get_at_add_at {a a' : NDArray} {idx : List Nat} {w : ℚ}
    (h : a.add_at idx w = some a') :
    a'.width = a.width ∧ a'.element.length = a.element.length ∧
      in_range a.width idx = true ∧
      (∃ x, a.get_at idx = some x ∧ a'.get_at idx = some (x + w)) ∧
      (∀ j, j ≠ idx → a'.get_at j = a.get_at j) ∧
      (∀ k, k ≠ flat_index a.width idx → a'.get_element k = a.get_element k) := by
  unfold NDArray.add_at at h
  split at h
  · rename_i hc
    obtain ⟨hr, hlt⟩ := hc
    simp only [Option.some.injEq] at h
    subst h
    refine ⟨rfl, by simp, hr, ⟨rd a.element (flat_index a.width idx), ?_, ?_⟩, ?_, ?_⟩
    · simp [NDArray.get_at, hr, rd, List.getD_eq_getElem?_getD, List.getElem?_eq_getElem hlt]
    · simp [NDArray.get_at, hr, List.getElem?_set, hlt]
    · intro j hj
      by_cases hjr : in_range a.width j = true
      · have hne : flat_index a.width idx ≠ flat_index a.width j :=
          fun e => hj (flat_index_inj hjr hr e.symm)
        simp [NDArray.get_at, hjr, List.getElem?_set_ne hne]
      · simp [NDArray.get_at, hjr]
    · intro k hk
      simp [NDArray.get_element, rd, List.getD_eq_getElem?_getD, List.getElem?_set_ne (Ne.symm hk)]
  · simp at h

theorem bin_index_in_range {b : TBinnerND} {pos : List ℚ} (hv : b.Valid)
    (hin : ∀ i < b.N, rd b.min i ≤ rd pos i ∧ rd pos i < rd b.max i) :
    TBinnerND.bin_index b pos =
        some ((List.range b.N).map fun i => ⌊(rd pos i - rd b.min i) / rd b.dx i⌋.toNat) ∧
      in_range b.bin.width
        ((List.range b.N).map fun i => ⌊(rd pos i - rd b.min i) / rd b.dx i⌋.toNat) = true := by
  have key : ∀ i < b.N,
      cast_quot (rd pos i - rd b.min i) (rd b.dx i) =
          some ⌊(rd pos i - rd b.min i) / rd b.dx i⌋.toNat ∧
        ⌊(rd pos i - rd b.min i) / rd b.dx i⌋.toNat < rdu b.bin.width i := by
    intro i hi
    have hW : (0 : ℚ) < (rdu b.bin.width i : ℚ) := by
      exact_mod_cast hv.count_pos i hi
    have hr : 0 < rd b.max i - rd b.min i := sub_pos.mpr (hv.ordered i hi)
    have hdx : 0 < rd b.dx i := by rw [hv.dx_eq i hi]; exact div_pos hr hW
    apply cast_quot_eq (sub_nonneg.mpr (hin i hi).1) hdx _ (hv.count_lt i hi).le
    rw [hv.dx_eq i hi, div_div_eq_mul_div, div_lt_iff₀ hr]
    have : rd pos i - rd b.min i < rd b.max i - rd b.min i := by linarith [(hin i hi).2]
    nlinarith
  constructor
  · unfold TBinnerND.bin_index
    apply all_defined_map_some
    intro i hi
    exact (key i (List.mem_range.mp hi)).1
  · rw [in_range_iff]
    refine ⟨by simp [hv.width_len], fun i hi => ?_⟩
    rw [hv.width_len] at hi
    rw [rdu_map_range _ _ _ hi]
    exact (key i hi).2

theorem rd_set_self (xs : List ℚ) (k : Nat) (v : ℚ) (h : k < xs.length) :
    rd (xs.set k v) k = v := by
  simp [rd, List.getD_eq_getElem?_getD, List.getElem?_set, h]

theorem add_at_add_at (a : NDArray) (idx : List Nat) (w1 w2 : ℚ) :
    (a.add_at idx w1).bind (fun a1 => a1.add_at idx w2) = a.add_at idx (w1 + w2) := by
  unfold NDArray.add_at
  by_cases hc : in_range a.width idx = true ∧ flat_index a.width idx < a.element.length
  · simp only [hc, and_self, if_true, Option.some_bind, List.length_set]
    simp [rd_set_self _ _ _ hc.2, List.set_set, add_assoc]
  · simp [hc]

theorem add_cell_add_cell (bin : List (List ℚ)) (j k : Nat) (w1 w2 : ℚ) :
    (add_cell bin j k w1).bind (fun b1 => add_cell b1 j k w2) = add_cell bin j k (w1 + w2) := by
  unfold add_cell
  cases hrow : bin[j]? with
  | none => simp
  | some row =>
    have hj : j < bin.length := by
      by_contra hcon
      rw [List.getElem?_eq_none (by omega)] at hrow
      exact absurd hrow (by simp)
    by_cases hk : k < row.length
    · simp [hk, List.getElem?_set, hj, rd_set_self _ _ _ hk, List.set_set, add_assoc]
    · simp [hk]

/-! ## Lemmas on normalization -/

theorem peak_scan_ge (xs : List ℚ) (n : ℚ) :
    n ≤ peak_scan xs n ∧ ∀ x ∈ xs, x ≤ peak_scan xs n := by
  induction xs generalizing n with
  | nil => simp [peak_scan]
  | cons a xs ih =>
    have h := ih (if a > n then a else n)
    simp only [peak_scan, List.foldl_cons, List.mem_cons, forall_eq_or_imp] at h ⊢
    refine ⟨?_, ?_, h.2⟩
    · refine le_trans ?_ h.1
      split <;> [exact le_of_lt (by assumption); exact le_refl _]
    · refine le_trans ?_ h.1
      split <;> [exact le_refl _; exact not_lt.mp (by assumption)]

theorem peak_scan_mem (xs : List ℚ) (n : ℚ) : peak_scan xs n = n ∨ peak_scan xs n ∈ xs := by
  induction xs generalizing n with
  | nil => simp [peak_scan]
  | cons a xs ih =>
    have h := ih (if a > n then a else n)
    simp only [peak_scan, List.foldl_cons, List.mem_cons] at h ⊢
    rcases h with h | h
    · rw [h]
      split
      · exact Or.inr (Or.inl rfl)
      · exact Or.inl rfl
    · exact Or.inr (Or.inr h)

theorem peak_scan_eq_max {xs : List ℚ} {m : ℚ} (hm : m ∈ xs) (hmax : ∀ x ∈ xs, x ≤ m)
    (hpos : 0 < m) : peak_scan xs 0 = m := by
  have hge := (peak_scan_ge xs 0).2 m hm
  rcases peak_scan_mem xs 0 with h | h
  · rw [h] at hge
    exact absurd hpos (not_lt.mpr hge)
  · exact le_antisymm (hmax _ h) hge

theorem peak_scan_rows (bin : List (List ℚ)) (n : ℚ) :
    bin.foldl (fun n row => peak_scan row n) n = peak_scan bin.flatten n := by
  simp [peak_scan, List.foldl_flatten]

theorem div_scan_eq (xs : List ℚ) {norm : ℚ} (h : norm ≠ 0) :
    div_scan xs norm = some (xs.map fun x => x / norm) := by
  unfold div_scan
  apply all_defined_map_some
  intro a _
  simp [fdiv, h]

theorem div_scan_rows (bin : List (List ℚ)) {norm : ℚ} (h : norm ≠ 0) :
    all_defined (bin.map fun row => div_scan row norm) =
      some (bin.map fun row => row.map fun x => x / norm) := by
  apply all_defined_map_some
  intro row _
  exact div_scan_eq row h

theorem flatten_length_rows (bin : List (List ℚ)) (W : Nat) (hW : ∀ r ∈ bin, r.length = W) :
    bin.flatten.length = bin.length * W := by
  induction bin with
  | nil => simp
  | cons r rest ih =>
    have h1 := hW r (List.mem_cons_self r rest)
    have h2 := ih (fun x hx => hW x (List.mem_cons_of_mem r hx))
    simp only [List.flatten_cons, List.length_append, List.length_cons, h1, h2]
    ring

theorem flatten_set_row (bin : List (List ℚ)) (W j k : Nat) (row : List ℚ) (v : ℚ)
    (hW : ∀ r ∈ bin, r.length = W) (hrow : bin[j]? = some row) (hk : k < W) :
    (bin.set j (row.set k v)).flatten = bin.flatten.set (j * W + k) v ∧
      rd bin.flatten (j * W + k) = rd row k := by
  induction bin generalizing j with
  | nil => simp at hrow
  | cons r rest ih =>
    have hr := hW r (List.mem_cons_self r rest)
    cases j with
    | zero =>
      simp only [List.getElem?_cons_zero, Option.some.injEq] at hrow
      subst hrow
      have hkr : k < r.length := by omega
      constructor
      · simp [List.set_append, hkr]
      · simp [rd, List.getD_eq_getElem?_getD, List.getElem?_append_left hkr]
    | succ j =>
      simp only [List.getElem?_cons_succ] at hrow
      obtain ⟨h1, h2⟩ := ih j (fun x hx => hW x (List.mem_cons_of_mem r hx)) hrow
      have hge : r.length ≤ (j + 1) * W + k := by rw [hr]; nlinarith
      have hsub : (j + 1) * W + k - r.length = j * W + k := by
        rw [hr]
        have : (j + 1) * W = j * W + W := by ring
        omega
      have hnlt : ¬ ((j + 1) * W + k < r.length) := by omega
      constructor
      · simp [List.set_append, hnlt, hsub, h1]
      · simp only [rd, List.getD_eq_getElem?_getD] at h2 ⊢
        rw [List.flatten_cons, List.getElem?_append_right hge, hsub, h2]

theorem add_cell_flatten (bin : List (List ℚ)) (W0 W1 j k : Nat) (w : ℚ)
    (hlen : bin.length = W0) (hW : ∀ r ∈ bin, r.length = W1) :
    (add_cell bin j k w).map (fun rows => (⟨[W0, W1], rows.flatten⟩ : NDArray)) =
      (⟨[W0, W1], bin.flatten⟩ : NDArray).add_at [j, k] w := by
  have hfl := flatten_length_rows bin W1 hW
  cases hrow : bin[j]? with
  | none =>
    have hj : ¬ j < W0 := by
      intro hj
      rw [← hlen] at hj
      rw [List.getElem?_eq_getElem hj] at hrow
      exact absurd hrow (by simp)
    simp [add_cell, hrow, NDArray.add_at, in_range, hj]
  | some row =>
    have hj : j < W0 := by
      by_contra hcon
      rw [List.getElem?_eq_none (by omega)] at hrow
      exact absurd hrow (by simp)
    have hrl : row.length = W1 := hW row (List.getElem?_mem hrow)
    by_cases hk : k < W1
    · obtain ⟨h1, h2⟩ := flatten_set_row bin W1 j k row (rd row k + w) hW hrow hk
      have hflat : j * W1 + k < bin.flatten.length := by
        rw [hfl, hlen]
        have : (j + 1) * W1 ≤ W0 * W1 := Nat.mul_le_mul_right _ hj
        have : (j + 1) * W1 = j * W1 + W1 := by ring
        omega
      simp [add_cell, hrow, hrl, hk, NDArray.add_at, in_range, flat_index, hj, hflat, h1, h2,
        -List.length_flatten]
    · simp [add_cell, hrow, hrl, hk, NDArray.add_at, in_range]

theorem add_cell_shape (bin bin' : List (List ℚ)) (W0 W1 j k : Nat) (w : ℚ)
    (hlen : bin.length = W0) (hW : ∀ r ∈ bin, r.length = W1)
    (h : add_cell bin j k w = some bin') :
    bin'.length = W0 ∧ ∀ r ∈ bin', r.length = W1 := by
  unfold add_cell at h
  cases hrow : bin[j]? with
  | none => simp [hrow] at h
  | some row =>
    have hrl : row.length = W1 := hW row (List.getElem?_mem hrow)
    simp only [hrow] at h
    split at h
    · simp only [Option.some.injEq] at h
      subst h
      refine ⟨by simpa using hlen, fun r hr => ?_⟩
      rcases List.mem_or_eq_of_mem_set hr with h1 | h1
      · exact hW r h1
      · simp [h1, hrl]
    · simp at h

/-! ## Lemmas on serialization -/

theorem map_range_rd (xs : List ℚ) {β : Type} (f : ℚ → β) :
    (List.range xs.length).map (fun k => f (rd xs k)) = xs.map f := by
  apply List.ext_getElem
  · simp
  · intro i h1 h2
    have hi : i < xs.length := by simpa using h1
    simp [rd, List.getD_eq_getElem?_getD, List.getElem?_eq_getElem hi]

theorem min_scan_spec (xs : List ℚ) (acc : Option ℚ) :
    (∀ a, acc = some a → ∃ y, min_scan xs acc = some y ∧ y ≤ a) ∧
    (∀ x ∈ xs, x ≠ 0 → ∃ y, min_scan xs acc = some y ∧ y ≤ x) ∧
    (min_scan xs acc = acc ∨ ∃ x ∈ xs, x ≠ 0 ∧ min_scan xs acc = some x) := by
  induction xs generalizing acc with
  | nil =>
    refine ⟨fun a ha => ⟨a, ha, le_refl a⟩, by simp, Or.inl rfl⟩
  | cons a xs ih =>
    obtain ⟨h1, h2, h3⟩ := ih (if a ≠ 0 ∧ below a acc = true then some a else acc)
    have hstep : min_scan (a :: xs) acc =
        min_scan xs (if a ≠ 0 ∧ below a acc = true then some a else acc) := by
      simp [min_scan]
    rw [hstep]
    by_cases hc : a ≠ 0 ∧ below a acc = true
    · rw [if_pos hc] at h1 h2 h3 ⊢
      obtain ⟨y, hy, hya⟩ := h1 a rfl
      refine ⟨?_, ?_, ?_⟩
      · intro a0 ha0
        subst ha0
        have : a < a0 := by simpa [below] using hc.2
        exact ⟨y, hy, by linarith⟩
      · intro x hx hx0
        rcases List.mem_cons.mp hx with rfl | hx
        · exact ⟨y, hy, hya⟩
        · exact h2 x hx hx0
      · right
        rcases h3 with h | ⟨x, hx, hx0, hxe⟩
        · exact ⟨a, List.mem_cons_self a xs, hc.1, h⟩
        · exact ⟨x, List.mem_cons_of_mem a hx, hx0, hxe⟩
    · rw [if_neg hc] at h1 h2 h3 ⊢
      refine ⟨h1, ?_, ?_⟩
      · intro x hx hx0
        rcases List.mem_cons.mp hx with rfl | hx
        · have hb : below x acc = false := by
            by_contra hcon
            exact hc ⟨hx0, by simpa using hcon⟩
          cases acc with
          | none => simp [below] at hb
          | some a0 =>
            obtain ⟨y, hy, hya⟩ := h1 a0 rfl
            have : a0 ≤ x := by simpa [below] using hb
            exact ⟨y, hy, by linarith⟩
        · exact h2 x hx hx0
      · rcases h3 with h | ⟨x, hx, hx0, hxe⟩
        · exact Or.inl h
        · exact Or.inr ⟨x, List.mem_cons_of_mem a hx, hx0, hxe⟩

theorem min_scan_eq_min {xs : List ℚ} {m : ℚ} (hm : m ∈ xs) (hm0 : m ≠ 0)
    (hmin : ∀ x ∈ xs, x ≠ 0 → m ≤ x) : min_scan xs none = some m := by
  obtain ⟨_, h2, h3⟩ := min_scan_spec xs none
  obtain ⟨y, hy, hym⟩ := h2 m hm hm0
  rcases h3 with h | ⟨x, hx, hx0, hxe⟩
  · rw [h] at hy
    exact absurd hy (by simp)
  · rw [hxe] at hy
    simp only [Option.some.injEq] at hy
    subst hy
    rw [hxe, le_antisymm hym (hmin x hx hx0)]

theorem out_values_eq (b : TBinnerND) (log : ℚ → ℚ) (log_pdf : Bool) :
    TBinnerND.out_values b log log_pdf =
      b.bin.element.map (TBinnerND.out_value log log_pdf (TBinnerND.log_floor b log log_pdf)) := by
  unfold TBinnerND.out_values NDArray.get_size NDArray.get_element
  exact map_range_rd b.bin.element _

theorem ascii_lines_value (b : TBinnerND) (log : ℚ → ℚ) (log_pdf : Bool) :
    (TBinnerND.ascii_lines b log log_pdf).map (fun l => l.value) =
      TBinnerND.out_values b log log_pdf := by
  simp [TBinnerND.ascii_lines, TBinnerND.out_values, Function.comp_def]

theorem parse_records_header (b : TBinnerND) (l : List Nat) (rest : List Field) :
    parse_records l.length ((l.map (TBinnerND.header_record b)).flatten ++ rest) =
      some (l.map (axis_record b), rest) := by
  induction l with
  | nil => simp [parse_records]
  | cons i l ih =>
    simp [parse_records, parse_record, TBinnerND.header_record, axis_record,
      NDArray.get_width, ih]

theorem parse_header_cons (n : Nat) (tl : List Field) :
    parse_header (Field.u32 n :: tl) = parse_records n (Field.u32 n :: tl) := rfl

theorem map_range_rd_id (xs : List ℚ) : (List.range xs.length).map (rd xs) = xs := by
  have h := map_range_rd xs (fun x => x)
  simpa using h

theorem map_range_rdu_id (xs : List Nat) : (List.range xs.length).map (rdu xs) = xs := by
  apply List.ext_getElem
  · simp
  · intro i h1 h2
    have hi : i < xs.length := by simpa using h1
    simp [rdu, List.getD_eq_getElem?_getD, List.getElem?_eq_getElem hi]

/-! ## Lemmas on the collector -/

theorem foldl_add_binner {N : Nat} (m : TMultiBinner N) (hs : List Nat) :
    (hs.foldl TMultiBinner.add_binner m).binner_arr = m.binner_arr ++ hs := by
  induction hs generalizing m with
  | nil => simp
  | cons h hs ih => simp [ih, TMultiBinner.add_binner]

theorem broadcast_loop_spec {N : Nat} (arr : List Nat) (heap : Heap N) (pos : Fin N → ℚ)
    (w : ℚ) (hnd : arr.Nodup)
    (hdef : ∀ a ∈ arr, ∃ b b', heap[a]? = some b ∧ b.add_point pos w = some b') :
    ∃ heap', TMultiBinner.broadcast_loop arr heap pos w = some heap' ∧
      heap'.length = heap.length ∧
      (∀ a ∈ arr, heap'[a]? = (heap[a]?).bind fun b => b.add_point pos w) ∧
      (∀ a, a ∉ arr → heap'[a]? = heap[a]?) := by
  induction arr generalizing heap with
  | nil => exact ⟨heap, rfl, rfl, by simp, fun a _ => rfl⟩
  | cons a rest ih =>
    obtain ⟨hnotin, hnd'⟩ := List.nodup_cons.mp hnd
    obtain ⟨b, b', hb, hb'⟩ := hdef a (List.mem_cons_self a rest)
    have hlt : a < heap.length := by
      by_contra hcon
      rw [List.getElem?_eq_none (by omega)] at hb
      exact absurd hb (by simp)
    have hdef' : ∀ c ∈ rest, ∃ d d', (heap.set a b')[c]? = some d ∧
        d.add_point pos w = some d' := by
      intro c hc
      have hne : a ≠ c := fun e => hnotin (e ▸ hc)
      rw [List.getElem?_set_ne hne]
      exact hdef c (List.mem_cons_of_mem a hc)
    obtain ⟨heap', h1, h2, h3, h4⟩ := ih (heap.set a b') hnd' hdef'
    refine ⟨heap', by simp [TMultiBinner.broadcast_loop, hb, hb', h1], by simpa using h2, ?_, ?_⟩
    · intro c hc
      rcases List.mem_cons.mp hc with rfl | hc
      · rw [h4 c hnotin, hb]
        simp [List.getElem?_set, hlt, hb']
      · have hne : a ≠ c := fun e => hnotin (e ▸ hc)
        rw [h3 c hc, List.getElem?_set_ne hne]
    · intro c hc
      have hne : a ≠ c := fun e => hc (e ▸ List.mem_cons_self a rest)
      rw [h4 c (fun h => hc (List.mem_cons_of_mem a h)), List.getElem?_set_ne hne]

/-! ## Lemmas on construction -/

theorem rd_map_range (N : Nat) (g : Nat → ℚ) (i : Nat) (hi : i < N) :
    rd ((List.range N).map g) i = g i := by
  simp [rd, List.getD_eq_getElem?_getD, hi]

theorem create_nd_eq (_min _max : List ℚ) (width : List Nat) (N : Nat)
    (hmin : _min.length = N) (hmax : _max.length = N) (hw : width.length = N)
    (hpos : ∀ i < N, 1 ≤ rdu width i) (garbage : Nat → ℚ) :
    TBinnerND.create _min _max width N garbage =
      some { bin := { width := width, element := List.replicate width.prod 0 }
             min := _min
             max := _max
             dx := (List.range N).map fun i => (rd _max i - rd _min i) / (rdu width i : ℚ)
             N := N
             index_workspace := List.replicate N 0 } := by
  have hdx : all_defined ((List.range N).map
      (fun i => fdiv (rd _max i - rd _min i) (rdu width i))) =
      some ((List.range N).map fun i => (rd _max i - rd _min i) / (rdu width i : ℚ)) := by
    apply all_defined_map_some
    intro i hi
    have h1 := hpos i (List.mem_range.mp hi)
    have : (rdu width i : ℚ) ≠ 0 := by
      have : 0 < rdu width i := h1
      exact_mod_cast this.ne.symm
    simp [fdiv, this]
  have e1 : (List.range N).map (rd _min) = _min := by rw [← hmin]; exact map_range_rd_id _min
  have e2 : (List.range N).map (rd _max) = _max := by rw [← hmax]; exact map_range_rd_id _max
  have e3 : width.take N = width := by rw [← hw]; exact List.take_length width
  simp [TBinnerND.create, hdx, e1, e2, e3, TBinnerND.clear, NDArray.fill, NDArray.create]

/-! ## Lemmas on the loops over a 2-D grid -/

theorem table_length {α : Type} (W0 W1 : Nat) (f : Nat → Nat → α) :
    ((List.range W0).map fun j => (List.range W1).map fun k => f j k).flatten.length =
      W0 * W1 := by
  induction W0 with
  | zero => simp
  | succ n ih =>
    rw [List.range_succ, List.map_append, List.flatten_append, List.length_append, ih]
    simp
    ring

theorem table_get {α : Type} (W0 W1 : Nat) (f : Nat → Nat → α) (j k : Nat)
    (hj : j < W0) (hk : k < W1) :
    ((List.range W0).map fun j => (List.range W1).map fun k => f j k).flatten[j * W1 + k]? =
      some (f j k) := by
  induction W0 with
  | zero => omega
  | succ n ih =>
    rw [List.range_succ, List.map_append, List.flatten_append]
    have hlen := table_length n W1 f
    by_cases hjn : j < n
    · have hlt : j * W1 + k <
          ((List.range n).map fun j => (List.range W1).map fun k => f j k).flatten.length := by
        rw [hlen]
        have : (j + 1) * W1 ≤ n * W1 := Nat.mul_le_mul_right _ hjn
        have : (j + 1) * W1 = j * W1 + W1 := by ring
        omega
      rw [List.getElem?_append_left hlt]
      exact ih hjn
    · have hjeq : j = n := by omega
      subst hjeq
      have hge : ((List.range j).map fun j => (List.range W1).map fun k => f j k).flatten.length
          ≤ j * W1 + k := by rw [hlen]; omega
      rw [List.getElem?_append_right hge, hlen]
      simp [hk]

theorem cell_shaped {N : Nat} {b : TBinner2D N} (hs : b.Shaped) (j k : Nat)
    (hj : j < b.width.1) (hk : k < b.width.2) :
    cell b.bin j k = some (rd (b.bin.getD j []) k) := by
  have hjl : j < b.bin.length := by rw [hs.1]; exact hj
  have hrow : (b.bin[j]).length = b.width.2 := hs.2 _ (List.getElem_mem hjl)
  have hkl : k < (b.bin[j]).length := by rw [hrow]; exact hk
  simp [cell, List.getElem?_eq_getElem hjl, List.getD_eq_getElem?_getD, rd,
    List.getElem?_eq_getElem hkl]

/-! ## Lemmas on the index of an accepted point -/

theorem axis_index {lo hi dx p : ℚ} {W : Nat} (hW1 : 1 ≤ W) (hWU : W < UINT_RANGE)
    (hord : lo < hi) (hdx : dx = (hi - lo) / (W : ℚ)) (h1 : lo ≤ p) (h2 : p ≤ hi) :
    cast_quot (p - lo) dx = some ⌊(p - lo) / dx⌋.toNat ∧
      ⌊(p - lo) / dx⌋.toNat ≤ W ∧
      (⌊(p - lo) / dx⌋.toNat = W ↔ p = hi) ∧
      (⌊(p - lo) / dx⌋.toNat < W ↔ p < hi) := by
  have hWq : (0 : ℚ) < (W : ℚ) := by exact_mod_cast hW1
  have hr : 0 < hi - lo := sub_pos.mpr hord
  have hdxpos : 0 < dx := by rw [hdx]; exact div_pos hr hWq
  have hq : (p - lo) / dx = (p - lo) * W / (hi - lo) := by
    rw [hdx, div_div_eq_mul_div]
  have hq0 : 0 ≤ (p - lo) / dx := div_nonneg (sub_nonneg.mpr h1) hdxpos.le
  have hqW : (p - lo) / dx ≤ W := by
    rw [hq, div_le_iff₀ hr]
    have : p - lo ≤ hi - lo := by linarith
    nlinarith
  have hqeq : (p - lo) / dx = W ↔ p = hi := by
    rw [hq, div_eq_iff hr.ne.symm]
    constructor
    · intro h
      have : (p - lo) * W = (hi - lo) * W := by linarith
      have := mul_right_cancel₀ hWq.ne.symm this
      linarith
    · intro h
      rw [h]
      ring
  have hf0 : 0 ≤ ⌊(p - lo) / dx⌋ := Int.floor_nonneg.mpr hq0
  have hfW : ⌊(p - lo) / dx⌋ ≤ (W : Int) := by
    have h := Int.floor_le ((p - lo) / dx)
    have : ((⌊(p - lo) / dx⌋ : Int) : ℚ) ≤ ((W : Int) : ℚ) := by
      push_cast
      exact le_trans h hqW
    exact_mod_cast this
  have hfU : ⌊(p - lo) / dx⌋ < (UINT_RANGE : Int) :=
    lt_of_le_of_lt hfW (by exact_mod_cast hWU)
  have hfeq : ⌊(p - lo) / dx⌋.toNat = W ↔ p = hi := by
    rw [← hqeq]
    constructor
    · intro h
      have hfl : ⌊(p - lo) / dx⌋ = (W : Int) := by omega
      have h3 := Int.floor_le ((p - lo) / dx)
      rw [hfl] at h3
      have h3' : (W : ℚ) ≤ (p - lo) / dx := by exact_mod_cast h3
      exact le_antisymm hqW h3'
    · intro h
      rw [h]
      simp
  refine ⟨?_, by omega, hfeq, ?_⟩
  · simp [cast_quot, fdiv, hdxpos.ne.symm, to_uint, trunc, hq0, hf0, hfU]
  · constructor
    · intro h
      have hne : p ≠ hi := fun e => by
        have := hfeq.mpr e
        omega
      exact lt_of_le_of_ne h2 hne
    · intro h
      have hne : ⌊(p - lo) / dx⌋.toNat ≠ W := fun e => by
        have := hfeq.mp e
        linarith
      omega

theorem add_cell_isSome_iff (bin : List (List ℚ)) (W0 W1 j k : Nat) (w : ℚ)
    (hlen : bin.length = W0) (hW : ∀ r ∈ bin, r.length = W1) :
    (add_cell bin j k w).isSome = true ↔ j < W0 ∧ k < W1 := by
  unfold add_cell
  by_cases hj : j < W0
  · have hjl : j < bin.length := by rw [hlen]; exact hj
    have hrow : (bin[j]).length = W1 := hW _ (List.getElem_mem hjl)
    rw [List.getElem?_eq_getElem hjl]
    by_cases hk : k < W1
    · simp [hj, hk, hrow]
    · simp [hj, hk, hrow]
  · rw [List.getElem?_eq_none (by omega)]
    simp [hj]

/-! ## Lemmas on the order of accumulation -/

theorem rd_set_ne (xs : List ℚ) (i j : Nat) (v : ℚ) (h : i ≠ j) :
    rd (xs.set i v) j = rd xs j := by
  simp [rd, List.getD_eq_getElem?_getD, List.getElem?_set_ne h]

theorem set_add_comm (xs : List ℚ) (i j : Nat) (w v : ℚ) (hi : i < xs.length)
    (hj : j < xs.length) :
    (xs.set i (rd xs i + w)).set j (rd (xs.set i (rd xs i + w)) j + v) =
      (xs.set j (rd xs j + v)).set i (rd (xs.set j (rd xs j + v)) i + w) := by
  by_cases h : i = j
  · subst h
    rw [rd_set_self _ _ _ hi, rd_set_self _ _ _ hi, List.set_set, List.set_set]
    congr 1
    ring
  · rw [rd_set_ne _ _ _ _ h, rd_set_ne _ _ _ _ (Ne.symm h), List.set_comm _ _ _ h]

theorem add_at_comm (a : NDArray) (i j : List Nat) (w v : ℚ) :
    (a.add_at i w).bind (fun a1 => a1.add_at j v) =
      (a.add_at j v).bind (fun a1 => a1.add_at i w) := by
  unfold NDArray.add_at
  by_cases hi : in_range a.width i = true ∧ flat_index a.width i < a.element.length
  · by_cases hj : in_range a.width j = true ∧ flat_index a.width j < a.element.length
    · simp only [hi, hj, and_self, if_true, Option.some_bind, List.length_set]
      rw [set_add_comm _ _ _ _ _ hi.2 hj.2]
    · simp [hi, hj]
  · by_cases hj : in_range a.width j = true ∧ flat_index a.width j < a.element.length
    · simp [hi, hj]
    · simp [hi, hj]

theorem grid_step_of_add_point (b : TBinnerND) (p : List ℚ) (w : ℚ) :
    (b.add_point p w).map (fun b' => b'.bin) = b.grid_step b.bin (p, w) := by
  unfold TBinnerND.add_point TBinnerND.grid_step
  by_cases hob : b.out_of_bounds p = true
  · simp [hob]
  · cases hidx : b.bin_index p with
    | none => simp [hob]
    | some idx =>
      cases ha : b.bin.add_at idx w with
      | none => simp [hob, ha]
      | some a' => simp [hob, ha]

theorem grid_step_frame {b b' : TBinnerND} {p : List ℚ} {w : ℚ}
    (h : b.add_point p w = some b') : b'.grid_step = b.grid_step := by
  have hcfg : b'.N = b.N ∧ b'.min = b.min ∧ b'.max = b.max ∧ b'.dx = b.dx := by
    unfold TBinnerND.add_point at h
    by_cases hob : b.out_of_bounds p = true
    · simp only [hob, if_true, Option.some.injEq] at h
      subst h
      exact ⟨rfl, rfl, rfl, rfl⟩
    · cases hidx : b.bin_index p with
      | none => simp [hob, hidx] at h
      | some idx =>
        cases ha : b.bin.add_at idx w with
        | none => simp [hob, hidx, ha] at h
        | some a' =>
          simp only [hob, hidx, ha, Option.some_bind, Option.map_some', Option.some.injEq,
            Bool.false_eq_true, if_false] at h
          subst h
          exact ⟨rfl, rfl, rfl, rfl⟩
  obtain ⟨h1, h2, h3, h4⟩ := hcfg
  funext a pw
  simp [TBinnerND.grid_step, TBinnerND.out_of_bounds, TBinnerND.bin_index, h1, h2, h3, h4]

theorem foldl_bind_none {σ α : Type} (f : σ → α → Option σ) (l : List α) :
    l.foldl (fun o x => o.bind fun s => f s x) none = none := by
  induction l with
  | nil => rfl
  | cons x l ih => simpa using ih

theorem add_points_nd_eq_foldl (l : List (List ℚ × ℚ)) (b : TBinnerND) :
    (b.add_points l).map (fun b' => b'.bin) =
      l.foldl (fun o pw => o.bind fun a => b.grid_step a pw) (some b.bin) := by
  induction l generalizing b with
  | nil => rfl
  | cons pw l ih =>
    have hstep := grid_step_of_add_point b pw.1 pw.2
    cases h : b.add_point pw.1 pw.2 with
    | none =>
      rw [h] at hstep
      simp only [Option.map_none'] at hstep
      simp only [TBinnerND.add_points, h, List.foldl_cons, Option.some_bind, ← hstep]
      rw [foldl_bind_none]
      rfl
    | some b' =>
      rw [h] at hstep
      simp only [Option.map_some'] at hstep
      simp only [TBinnerND.add_points, h, List.foldl_cons, Option.some_bind, ← hstep]
      rw [ih b', grid_step_frame h]

theorem grid_step_comm (b : TBinnerND) (z : Option NDArray) (x y : List ℚ × ℚ) :
    (z.bind fun a => b.grid_step a x).bind (fun a => b.grid_step a y) =
      (z.bind fun a => b.grid_step a y).bind (fun a => b.grid_step a x) := by
  cases z with
  | none => rfl
  | some a =>
    simp only [Option.some_bind, TBinnerND.grid_step]
    by_cases hx : b.out_of_bounds x.1 = true
    · by_cases hy : b.out_of_bounds y.1 = true
      · simp [hx, hy]
      · cases hiy : b.bin_index y.1 with
        | none => simp [hx, hy]
        | some j =>
          cases a.add_at j y.2 <;> simp [hx, hy]
    · by_cases hy : b.out_of_bounds y.1 = true
      · cases hix : b.bin_index x.1 with
        | none => simp [hx, hy]
        | some i =>
          cases a.add_at i x.2 <;> simp [hx, hy]
      · cases hix : b.bin_index x.1 with
        | none =>
          cases hiy : b.bin_index y.1 with
          | none => simp [hx, hy]
          | some j => cases a.add_at j y.2 <;> simp [hx, hy, hix]
        | some i =>
          cases hiy : b.bin_index y.1 with
          | none => cases a.add_at i x.2 <;> simp [hx, hy, hiy]
          | some j =>
            have hc := add_at_comm a i j x.2 y.2
            simp only [hx, hy, Bool.false_eq_true, if_false, Option.some_bind]
            cases h1 : a.add_at i x.2 <;> cases h2 : a.add_at j y.2 <;>
              simp [h1, h2, hiy, hix] at hc ⊢ <;> exact hc

theorem add_point_eq_target {N : Nat} (b : TBinner2D N) (pos : Fin N → ℚ) (w : ℚ) :
    b.add_point pos w =
      match b.target pos with
      | none => none
      | some none => some b
      | some (some ij) => (add_cell b.bin ij.1 ij.2 w).map fun bin' => { b with bin := bin' } := by
  unfold TBinner2D.add_point TBinner2D.target
  cases hc0 : coord pos b.bin_dim.1 with
  | none => rfl
  | some p0 =>
    by_cases h0 : p0 < b.min.1 ∨ p0 > b.max.1
    · simp [h0]
    · cases hc1 : coord pos b.bin_dim.2 with
      | none => simp [h0]
      | some p1 =>
        by_cases h1 : p1 < b.min.2 ∨ p1 > b.max.2
        · simp [h0, h1]
        · cases hq0 : cast_quot (p0 - b.min.1) b.dx.1 with
          | none => simp [h0, h1, hq0]
          | some i0 =>
            cases hq1 : cast_quot (p1 - b.min.2) b.dx.2 with
            | none => simp [h0, h1, hq0, hq1]
            | some i1 => simp [h0, h1, hq0, hq1]

theorem add_cell_eq {bin : List (List ℚ)} {j k : Nat} {w : ℚ} {bin' : List (List ℚ)}
    (h : add_cell bin j k w = some bin') :
    ∃ row, bin[j]? = some row ∧ j < bin.length ∧ k < row.length ∧
      bin' = bin.set j (row.set k (rd row k + w)) := by
  unfold add_cell at h
  cases hrow : bin[j]? with
  | none => simp [hrow] at h
  | some row =>
    have hj : j < bin.length := by
      by_contra hcon
      rw [List.getElem?_eq_none (by omega)] at hrow
      exact absurd hrow (by simp)
    simp only [hrow] at h
    split at h
    · rename_i hk
      simp only [Option.some.injEq] at h
      exact ⟨row, rfl, hj, hk, h.symm⟩
    · simp at h

theorem add_cell_after {bin : List (List ℚ)} {j k : Nat} {w : ℚ} {row : List ℚ}
    (hrow : bin[j]? = some row) (hj : j < bin.length) (j' k' : Nat) (v : ℚ) :
    add_cell (bin.set j (row.set k (rd row k + w))) j' k' v =
      if j' = j then
        (if k' < row.length then
          some (bin.set j ((row.set k (rd row k + w)).set k'
            (rd (row.set k (rd row k + w)) k' + v)))
        else none)
      else
        match bin[j']? with
        | none => none
        | some row' =>
          if k' < row'.length then
            some ((bin.set j (row.set k (rd row k + w))).set j' (row'.set k' (rd row' k' + v)))
          else none := by
  unfold add_cell
  by_cases hjj : j' = j
  · subst hjj
    simp [List.getElem?_set, hj, List.set_set]
  · simp [hjj, List.getElem?_set_ne (Ne.symm hjj)]

theorem add_cell_comm (bin : List (List ℚ)) (j k j' k' : Nat) (w v : ℚ) :
    (add_cell bin j k w).bind (fun b1 => add_cell b1 j' k' v) =
      (add_cell bin j' k' v).bind (fun b1 => add_cell b1 j k w) := by
  cases h1 : add_cell bin j k w with
  | none =>
    cases h2 : add_cell bin j' k' v with
    | none => rfl
    | some bin2 =>
      obtain ⟨row', hrow', hj', hk', rfl⟩ := add_cell_eq h2
      simp only [Option.none_bind, Option.some_bind]
      rw [add_cell_after hrow' hj']
      unfold add_cell at h1
      by_cases hjj : j = j'
      · subst hjj
        simp only [hrow'] at h1
        have hk : ¬ k < row'.length := by
          intro hk
          simp [hk] at h1
        simp [hk]
      · simp only [hjj, if_false]
        cases hr : bin[j]? with
        | none => simp
        | some r =>
          simp only [hr] at h1
          have hk : ¬ k < r.length := by
            intro hk
            simp [hk] at h1
          simp [hk]
  | some bin1 =>
    obtain ⟨row, hrow, hj, hk, rfl⟩ := add_cell_eq h1
    simp only [Option.some_bind]
    rw [add_cell_after hrow hj]
    cases h2 : add_cell bin j' k' v with
    | none =>
      simp only [Option.none_bind]
      unfold add_cell at h2
      by_cases hjj : j' = j
      · subst hjj
        simp only [hrow] at h2
        have hk' : ¬ k' < row.length := by
          intro hk'
          simp [hk'] at h2
        simp [hk']
      · simp only [hjj, if_false]
        cases hr : bin[j']? with
        | none => simp
        | some r =>
          simp only [hr] at h2
          have hk' : ¬ k' < r.length := by
            intro hk'
            simp [hk'] at h2
          simp [hk']
    | some bin2 =>
      obtain ⟨row', hrow', hj', hk', rfl⟩ := add_cell_eq h2
      simp only [Option.some_bind]
      rw [add_cell_after hrow' hj']
      by_cases hjj : j' = j
      · subst hjj
        have hrr : row' = row := by
          rw [hrow] at hrow'
          exact (Option.some.inj hrow').symm
        subst hrr
        simp only [if_true, hk, hk']
        rw [set_add_comm _ _ _ _ _ hk hk']
      · have hjj' : ¬ j = j' := fun e => hjj e.symm
        simp only [hjj, hjj', if_false, hrow, hrow', hk, hk', if_true]
        rw [List.set_comm _ _ _ hjj']

theorem target_with_bin {N : Nat} (b : TBinner2D N) (bin' : List (List ℚ)) :
    ({ b with bin := bin' } : TBinner2D N).target = b.target := rfl

theorem add_point_twice {N : Nat} (b : TBinner2D N) (p q : Fin N → ℚ) (w v : ℚ) :
    (b.add_point p w).bind (fun b1 => b1.add_point q v) =
      match b.target p, b.target q with
      | some none, some none => some b
      | some none, some (some kl) =>
        (add_cell b.bin kl.1 kl.2 v).map fun bin' => { b with bin := bin' }
      | some (some ij), some none =>
        (add_cell b.bin ij.1 ij.2 w).map fun bin' => { b with bin := bin' }
      | some (some ij), some (some kl) =>
        ((add_cell b.bin ij.1 ij.2 w).bind fun b1 => add_cell b1 kl.1 kl.2 v).map
          fun bin' => { b with bin := bin' }
      | _, _ => none := by
  rw [add_point_eq_target b p w]
  cases hp : b.target p with
  | none => rfl
  | some tp =>
    cases tp with
    | none =>
      simp only [Option.some_bind]
      rw [add_point_eq_target b q v]
      cases hq : b.target q with
      | none => rfl
      | some tq => cases tq <;> rfl
    | some ij =>
      cases hc : add_cell b.bin ij.1 ij.2 w with
      | none =>
        cases hq : b.target q with
        | none => simp [hc]
        | some tq => cases tq <;> simp [hc]
      | some bin1 =>
        simp only [hc, Option.map_some', Option.some_bind]
        rw [add_point_eq_target, target_with_bin]
        cases hq : b.target q with
        | none => rfl
        | some tq => cases tq <;> simp [hc]

theorem add_point_2d_comm {N : Nat} (b : TBinner2D N) (x y : (Fin N → ℚ) × ℚ) :
    (b.add_point x.1 x.2).bind (fun b1 => b1.add_point y.1 y.2) =
      (b.add_point y.1 y.2).bind (fun b1 => b1.add_point x.1 x.2) := by
  rw [add_point_twice, add_point_twice]
  cases hx : b.target x.1 with
  | none => cases hy : b.target y.1 with
    | none => rfl
    | some ty => cases ty <;> rfl
  | some tx =>
    cases hy : b.target y.1 with
    | none => cases tx <;> rfl
    | some ty =>
      cases tx with
      | none => cases ty <;> rfl
      | some ij =>
        cases ty with
        | none => rfl
        | some kl =>
          simp only
          rw [add_cell_comm]

theorem add_points_2d_eq_foldl {N : Nat} (l : List ((Fin N → ℚ) × ℚ)) (b : TBinner2D N) :
    b.add_points l =
      l.foldl (fun o pw => o.bind fun s => s.add_point pw.1 pw.2) (some b) := by
  induction l generalizing b with
  | nil => rfl
  | cons pw l ih =>
    cases h : b.add_point pw.1 pw.2 with
    | none =>
      simp only [TBinner2D.add_points, h, List.foldl_cons, Option.some_bind]
      rw [foldl_bind_none]
    | some b' =>
      simp only [TBinner2D.add_points, h, List.foldl_cons, Option.some_bind]
      exact ih b'

/-! ## Lemmas on the sum of the bins -/

theorem sum_set_eq (xs : List ℚ) (k : Nat) (v : ℚ) (h : k < xs.length) :
    (xs.set k v).sum = xs.sum - rd xs k + v := by
  induction xs generalizing k with
  | nil => simp at h
  | cons a xs ih =>
    cases k with
    | zero =>
      simp [rd]
      ring
    | succ k =>
      have := ih k (by simpa using h)
      simp only [rd] at this
      simp [this, rd]
      ring

theorem sum_set_add (xs : List ℚ) (k : Nat) (w : ℚ) (h : k < xs.length) :
    (xs.set k (rd xs k + w)).sum = xs.sum + w := by
  rw [sum_set_eq _ _ _ h]
  ring

theorem add_at_sum {a a' : NDArray} {idx : List Nat} {w : ℚ}
    (h : a.add_at idx w = some a') : a'.element.sum = a.element.sum + w := by
  unfold NDArray.add_at at h
  split at h
  · rename_i hc
    simp only [Option.some.injEq] at h
    subst h
    exact sum_set_add _ _ _ hc.2
  · simp at h

theorem add_cell_sum {bin bin' : List (List ℚ)} {j k : Nat} {w : ℚ}
    (h : add_cell bin j k w = some bin') : bin'.flatten.sum = bin.flatten.sum + w := by
  obtain ⟨row, hrow, hj, hk, rfl⟩ := add_cell_eq h
  rw [List.sum_flatten, List.sum_flatten, List.map_set, sum_set_eq _ _ _ (by simpa using hj),
    sum_set_add _ _ _ hk]
  have : rd (List.map List.sum bin) j = row.sum := by
    simp [rd, List.getD_eq_getElem?_getD, hrow]
  rw [this]
  ring

theorem add_point_nd_step {b : TBinnerND} (p : List ℚ) (w : ℚ) (hv : b.Valid)
    (hne : ∀ i < b.N, rd p i ≠ rd b.max i) :
    ∃ b', b.add_point p w = some b' ∧ b'.Valid ∧
      b'.N = b.N ∧ b'.min = b.min ∧ b'.max = b.max ∧
      b'.bin.element.sum = b.bin.element.sum + (if b.out_of_bounds p = true then 0 else w) := by
  by_cases hob : b.out_of_bounds p = true
  · refine ⟨b, by simp [TBinnerND.add_point, hob], hv, rfl, rfl, rfl, by simp [hob]⟩
  · have hin : ∀ i < b.N, rd b.min i ≤ rd p i ∧ rd p i < rd b.max i := by
      intro i hi
      have h1 : ¬ (rd p i < rd b.min i ∨ rd p i > rd b.max i) := by
        intro hcon
        apply hob
        simp only [TBinnerND.out_of_bounds, List.any_eq_true, List.mem_range, Bool.or_eq_true,
          decide_eq_true_eq]
        exact ⟨i, hi, hcon⟩
      simp only [not_or, not_lt] at h1
      exact ⟨h1.1, lt_of_le_of_ne h1.2 (hne i hi)⟩
    obtain ⟨hidx, hr⟩ := bin_index_in_range hv hin
    generalize ((List.range b.N).map
      fun i => ⌊(rd p i - rd b.min i) / rd b.dx i⌋.toNat) = idx at hidx hr
    have hlt := flat_index_lt hr
    rw [← hv.size] at hlt
    have hadd : ∃ a', b.bin.add_at idx w = some a' := by
      simp [NDArray.add_at, hr, hlt]
    obtain ⟨a', ha'⟩ := hadd
    obtain ⟨h1, h2, _⟩ := get_at_add_at ha'
    refine ⟨{ b with index_workspace := idx, bin := a' }, ?_, ?_, rfl, rfl, rfl, ?_⟩
    · simp [TBinnerND.add_point, hob, hidx, ha']
    · exact
        { width_len := by rw [h1]; exact hv.width_len
          size := by rw [h1, h2]; exact hv.size
          count_pos := by rw [h1]; exact hv.count_pos
          count_lt := by rw [h1]; exact hv.count_lt
          ordered := hv.ordered
          dx_eq := by rw [h1]; exact hv.dx_eq }
    · simp only [hob, if_false]
      exact add_at_sum ha'

theorem add_points_nd_sum (pts : List (List ℚ × ℚ)) (b : TBinnerND) (hv : b.Valid)
    (hne : ∀ pw ∈ pts, ∀ i < b.N, rd pw.1 i ≠ rd b.max i) :
    ∃ b', b.add_points pts = some b' ∧
      b'.bin.element.sum = b.bin.element.sum +
        ((pts.filter fun pw => !b.out_of_bounds pw.1).map fun pw => pw.2).sum := by
  induction pts generalizing b with
  | nil => exact ⟨b, rfl, by simp⟩
  | cons pw pts ih =>
    obtain ⟨b1, h1, hv1, hN, hmin, hmax, hsum⟩ :=
      add_point_nd_step pw.1 pw.2 hv (hne pw (List.mem_cons_self pw pts))
    have hob : ∀ q, b1.out_of_bounds q = b.out_of_bounds q := by
      intro q
      simp [TBinnerND.out_of_bounds, hN, hmin, hmax]
    obtain ⟨b', h2, hsum'⟩ := ih b1 hv1 (by
      intro qw hq i hi
      rw [hmax]
      rw [hN] at hi
      exact hne qw (List.mem_cons_of_mem pw hq) i hi)
    refine ⟨b', by simp [TBinnerND.add_points, h1, h2], ?_⟩
    rw [hsum', hsum]
    simp only [hob]
    by_cases hc : b.out_of_bounds pw.1 = true
    · simp [hc, List.filter_cons]
    · simp [hc, List.filter_cons]
      ring

theorem add_point_2d_step {N : Nat} {b : TBinner2D N} (pos : Fin N → ℚ) (w : ℚ)
    (hv : b.Valid)
    (hne0 : ∀ p0, coord pos b.bin_dim.1 = some p0 → p0 ≠ b.max.1)
    (hne1 : ∀ p1, coord pos b.bin_dim.2 = some p1 → p1 ≠ b.max.2) :
    ∃ bin', b.add_point pos w = some { b with bin := bin' } ∧
      (bin'.length = b.width.1 ∧ ∀ r ∈ bin', r.length = b.width.2) ∧
      bin'.flatten.sum = b.bin.flatten.sum + (if b.out_of_bounds pos = true then 0 else w) := by
  have hc0 : coord pos b.bin_dim.1 = some (pos ⟨b.bin_dim.1, hv.axes.1⟩) := by
    simp [coord, hv.axes.1]
  have hc1 : coord pos b.bin_dim.2 = some (pos ⟨b.bin_dim.2, hv.axes.2⟩) := by
    simp [coord, hv.axes.2]
  have hn0 := hne0 _ hc0
  have hn1 := hne1 _ hc1
  generalize pos ⟨b.bin_dim.1, hv.axes.1⟩ = p0 at hc0 hn0
  generalize pos ⟨b.bin_dim.2, hv.axes.2⟩ = p1 at hc1 hn1
  by_cases h0 : p0 < b.min.1 ∨ p0 > b.max.1
  · refine ⟨b.bin, by simp [TBinner2D.add_point, hc0, h0], hv.shaped, ?_⟩
    have hob : b.out_of_bounds pos = true := by
      rcases h0 with h | h <;> simp [TBinner2D.out_of_bounds, hc0, hc1, h]
    simp [hob]
  · by_cases h1 : p1 < b.min.2 ∨ p1 > b.max.2
    · refine ⟨b.bin, by simp [TBinner2D.add_point, hc0, hc1, h0, h1], hv.shaped, ?_⟩
      have hob : b.out_of_bounds pos = true := by
        rcases h1 with h | h <;> simp [TBinner2D.out_of_bounds, hc0, hc1, h]
      simp [hob]
    · have hb0 : b.min.1 ≤ p0 ∧ p0 ≤ b.max.1 := by
        simp only [not_or, not_lt] at h0
        exact h0
      have hb1 : b.min.2 ≤ p1 ∧ p1 ≤ b.max.2 := by
        simp only [not_or, not_lt] at h1
        exact h1
      have hob : b.out_of_bounds pos = false := by
        simp [TBinner2D.out_of_bounds, hc0, hc1, hb0, hb1]
      obtain ⟨a1, _, _, a4⟩ := axis_index hv.count_pos.1 hv.count_lt.1 hv.ordered.1
        hv.dx_eq.1 hb0.1 hb0.2
      obtain ⟨c1, _, _, c4⟩ := axis_index hv.count_pos.2 hv.count_lt.2 hv.ordered.2
        hv.dx_eq.2 hb1.1 hb1.2
      have hi0 := a4.mpr (lt_of_le_of_ne hb0.2 hn0)
      have hi1 := c4.mpr (lt_of_le_of_ne hb1.2 hn1)
      have hsome := (add_cell_isSome_iff b.bin b.width.1 b.width.2 _ _ w hv.shaped.1
        hv.shaped.2).mpr ⟨hi0, hi1⟩
      obtain ⟨bin', hbin'⟩ := Option.isSome_iff_exists.mp hsome
      refine ⟨bin', ?_, add_cell_shape b.bin bin' b.width.1 b.width.2 _ _ w hv.shaped.1
        hv.shaped.2 hbin', ?_⟩
      · simp [TBinner2D.add_point, hc0, hc1, h0, h1, a1, c1, hbin']
      · simp only [hob, Bool.false_eq_true, if_false]
        exact add_cell_sum hbin'

theorem add_points_2d_sum {N : Nat} (pts : List ((Fin N → ℚ) × ℚ)) (b : TBinner2D N)
    (hv : b.Valid)
    (hne : ∀ pw ∈ pts,
      (∀ p0, coord pw.1 b.bin_dim.1 = some p0 → p0 ≠ b.max.1) ∧
      (∀ p1, coord pw.1 b.bin_dim.2 = some p1 → p1 ≠ b.max.2)) :
    ∃ b', b.add_points pts = some b' ∧
      b'.bin.flatten.sum = b.bin.flatten.sum +
        ((pts.filter fun pw => !b.out_of_bounds pw.1).map fun pw => pw.2).sum := by
  induction pts generalizing b with
  | nil => exact ⟨b, rfl, by simp⟩
  | cons pw pts ih =>
    have hpw := hne pw (List.mem_cons_self pw pts)
    obtain ⟨bin1, h1, hshape, hsum⟩ := add_point_2d_step pw.1 pw.2 hv hpw.1 hpw.2
    have hv1 : ({ b with bin := bin1 } : TBinner2D N).Valid :=
      { shaped := hshape
        axes := hv.axes
        count_pos := hv.count_pos
        count_lt := hv.count_lt
        ordered := hv.ordered
        dx_eq := hv.dx_eq }
    obtain ⟨b', h2, hsum'⟩ := ih { b with bin := bin1 } hv1
      (fun qw hq => hne qw (List.mem_cons_of_mem pw hq))
    refine ⟨b', by simp [TBinner2D.add_points, h1, h2], ?_⟩
    have hob : ∀ q, ({ b with bin := bin1 } : TBinner2D N).out_of_bounds q =
        b.out_of_bounds q := fun q => rfl
    rw [hsum']
    simp only [hob]
    show bin1.flatten.sum + _ = _
    rw [hsum]
    by_cases hc : b.out_of_bounds pw.1 = true
    · simp [hc, List.filter_cons]
    · simp [hc, List.filter_cons]
      ring

/-! ## Lemmas on rounding -/

theorem round_even_of_near (z : ℚ) (n : Int) (h : |z - n| < 1 / 2) : round_even z = n := by
  rw [abs_lt] at h
  by_cases hz : (n : ℚ) ≤ z
  · have hf : ⌊z⌋ = n := by
      rw [Int.floor_eq_iff]
      constructor
      · exact hz
      · linarith
    have : z - (n : ℚ) < 1 / 2 := by linarith
    simp only [round_even, hf]
    rw [if_pos this]
  · have hf : ⌊z⌋ = n - 1 := by
      rw [Int.floor_eq_iff]
      push_cast
      constructor <;> linarith
    have h1 : ¬ (z - ((n - 1 : Int) : ℚ) < 1 / 2) := by push_cast; linarith
    have h2 : 1 / 2 < z - ((n - 1 : Int) : ℚ) := by push_cast; linarith
    simp only [round_even, hf]
    rw [if_neg h1, if_pos h2]
    omega

theorem round_even_of_tie (z : ℚ) (n : Int) (h : z = n + 1 / 2) :
    round_even z = if n % 2 = 0 then n else n + 1 := by
  have hf : ⌊z⌋ = n := by
    rw [Int.floor_eq_iff]
    constructor <;> linarith
  have h1 : ¬ (z - (n : ℚ) < 1 / 2) := by linarith
  have h2 : ¬ (1 / 2 < z - (n : ℚ)) := by linarith
  simp only [round_even, hf]
  rw [if_neg h1, if_neg h2]

theorem ulp_exponent_normal (x : ℚ) (e : Int) (hlo : (2 : ℚ) ^ e ≤ |x|)
    (hhi : |x| < (2 : ℚ) ^ (e + 1)) (he : -1022 ≤ e) : ulp_exponent x = e - 52 := by
  have hpos : 0 < |x| := lt_of_lt_of_le (zpow_pos (by norm_num) e) hlo
  have h1 : e ≤ Int.log 2 |x| := by
    rw [← Int.zpow_le_iff_le_log (by norm_num) hpos]
    simpa using hlo
  have h2 : Int.log 2 |x| < e + 1 := by
    rw [← Int.lt_zpow_iff_log_lt (by norm_num) hpos]
    simpa using hhi
  have : Int.log 2 |x| = e := by omega
  simp [ulp_exponent, this, he]

theorem ulp_exponent_subnormal (x : ℚ) (hx : x ≠ 0) (hhi : |x| < (2 : ℚ) ^ (-1022 : Int)) :
    ulp_exponent x = -1074 := by
  have hpos : 0 < |x| := abs_pos.mpr hx
  have h2 : Int.log 2 |x| < -1022 := by
    rw [← Int.lt_zpow_iff_log_lt (by norm_num) hpos]
    simpa using hhi
  have : max (Int.log 2 |x|) (-1022) = -1022 := max_eq_right h2.le
  simp [ulp_exponent, this]

theorem fl_of_near (x : ℚ) (u n : Int) (hx : x ≠ 0) (hu : ulp_exponent x = u)
    (hn : |x / (2 : ℚ) ^ u - n| < 1 / 2)
    (hfin : |(n : ℚ) * (2 : ℚ) ^ u| < (2 : ℚ) ^ (1024 : Int)) :
    fl x = some ((n : ℚ) * (2 : ℚ) ^ u) := by
  have hr := round_even_of_near _ n hn
  simp only [fl, hx, if_false, hu, hr, hfin, if_true]

theorem fl_of_tie (x : ℚ) (u n : Int) (hx : x ≠ 0) (hu : ulp_exponent x = u)
    (hn : x / (2 : ℚ) ^ u = n + 1 / 2)
    (hfin : |((if n % 2 = 0 then n else n + 1 : Int) : ℚ) * (2 : ℚ) ^ u|
      < (2 : ℚ) ^ (1024 : Int)) :
    fl x = some (((if n % 2 = 0 then n else n + 1 : Int) : ℚ) * (2 : ℚ) ^ u) := by
  have hr := round_even_of_tie _ n hn
  simp only [fl, hx, if_false, hu, hr, hfin, if_true]

/-- Evaluation of `fl` at a positive normal `x` with the binary exponent `e` whose
scaled value lies within a half of the integer `n`. -/
theorem fl_pos_near (x y : ℚ) (e n : Int) (hlo : (2 : ℚ) ^ e ≤ x) (hhi : x < (2 : ℚ) ^ (e + 1))
    (he : -1022 ≤ e) (h1 : (n : ℚ) - 1 / 2 < x / (2 : ℚ) ^ (e - 52))
    (h2 : x / (2 : ℚ) ^ (e - 52) < (n : ℚ) + 1 / 2) (hy : y = (n : ℚ) * (2 : ℚ) ^ (e - 52))
    (h0 : 0 ≤ y) (hfin : y < (2 : ℚ) ^ (1024 : Int)) : fl x = some y := by
  have hpos : 0 < x := lt_of_lt_of_le (zpow_pos (by norm_num) e) hlo
  have hu := ulp_exponent_normal x e (by rwa [abs_of_pos hpos]) (by rwa [abs_of_pos hpos]) he
  rw [fl_of_near x (e - 52) n hpos.ne.symm hu (by rw [abs_lt]; constructor <;> linarith)
    (by rw [← hy, abs_of_nonneg h0]; exact hfin), hy]

/-- Evaluation of `fl` at a positive normal `x` with the binary exponent `e` whose
scaled value lies half way between the integers `n` and `n + 1`. -/
theorem fl_pos_tie (x y : ℚ) (e n m : Int) (hlo : (2 : ℚ) ^ e ≤ x)
    (hhi : x < (2 : ℚ) ^ (e + 1)) (he : -1022 ≤ e)
    (hn : x / (2 : ℚ) ^ (e - 52) = (n : ℚ) + 1 / 2)
    (hm : m = if n % 2 = 0 then n else n + 1) (hy : y = (m : ℚ) * (2 : ℚ) ^ (e - 52))
    (h0 : 0 ≤ y) (hfin : y < (2 : ℚ) ^ (1024 : Int)) : fl x = some y := by
  have hpos : 0 < x := lt_of_lt_of_le (zpow_pos (by norm_num) e) hlo
  have hu := ulp_exponent_normal x e (by rwa [abs_of_pos hpos]) (by rwa [abs_of_pos hpos]) he
  rw [fl_of_tie x (e - 52) n hpos.ne.symm hu hn
    (by rw [← hm, ← hy, abs_of_nonneg h0]; exact hfin), ← hm, hy]

/-! ## Lemmas on the arithmetic of doubles at the example states -/

theorem fl_one : fl 1 = some 1 := by
  apply fl_pos_near 1 _ 0 (2 ^ 52) <;> norm_num

theorem fl_two : fl 2 = some 2 := by
  apply fl_pos_near 2 _ 1 (2 ^ 52) <;> norm_num

theorem fl_three : fl 3 = some 3 := by
  apply fl_pos_near 3 _ 1 6755399441055744 <;> norm_num

theorem fl_four : fl 4 = some 4 := by
  apply fl_pos_near 4 _ 2 (2 ^ 52) <;> norm_num

theorem fl_half : fl (1 / 2) = some (1 / 2) := by
  apply fl_pos_near (1 / 2) _ (-1) (2 ^ 52) <;> norm_num

theorem fl_three_halves : fl (3 / 2) = some (3 / 2) := by
  apply fl_pos_near (3 / 2) _ 0 6755399441055744 <;> norm_num

theorem fl_big : fl 10000000000000000 = some 10000000000000000 := by
  apply fl_pos_near 10000000000000000 _ 53 5000000000000000 <;> norm_num

theorem fl_big_one : fl 10000000000000001 = some 10000000000000000 := by
  apply fl_pos_tie 10000000000000001 _ 53 5000000000000000 5000000000000000 <;> norm_num

theorem fl_big_two : fl 10000000000000002 = some 10000000000000002 := by
  apply fl_pos_near 10000000000000002 _ 53 5000000000000001 <;> norm_num

theorem fl_tiny : fl tiny = some tiny := by
  have hu := ulp_exponent_subnormal tiny (by norm_num [tiny])
    (by rw [abs_of_pos (by norm_num [tiny])]; norm_num [tiny])
  have h := fl_of_near tiny (-1074) 1 (by norm_num [tiny]) hu
    (by norm_num [tiny]) (by rw [abs_lt]; constructor <;> norm_num)
  rw [h]
  norm_num [tiny]

theorem fl_half_tiny : fl (tiny / 2) = some 0 := by
  have hu := ulp_exponent_subnormal (tiny / 2) (by norm_num [tiny])
    (by rw [abs_of_pos (by norm_num [tiny])]; norm_num [tiny])
  have h := fl_of_tie (tiny / 2) (-1074) 0 (by norm_num [tiny]) hu
    (by norm_num [tiny]) (by norm_num)
  rw [h]
  norm_num

theorem fp_sub_one_zero : Fp.sub 1 0 = some 1 := by
  simp [Fp.sub, fl_one]

theorem fp_cast_quot_one_two : Fp.cast_quot 1 0 2 = some 0 := by
  have h2 : Fp.div 1 2 = some (1 / 2) := by
    rw [Fp.div, if_neg (by norm_num), fl_half]
  have h3 : to_uint (1 / 2) = some 0 := by
    norm_num [to_uint, trunc, UINT_RANGE]
  simp only [Fp.cast_quot, fp_sub_one_zero, h2, Option.some_bind, h3]

theorem fp_cast_quot_three_two : Fp.cast_quot 3 0 2 = some 1 := by
  have h1 : Fp.sub 3 0 = some 3 := by simp [Fp.sub, fl_three]
  have h2 : Fp.div 3 2 = some (3 / 2) := by
    rw [Fp.div, if_neg (by norm_num), fl_three_halves]
  have h3 : to_uint (3 / 2) = some 1 := by
    have hf : ⌊(3 / 2 : ℚ)⌋ = 1 := by
      rw [Int.floor_eq_iff]
      norm_num
    norm_num [to_uint, trunc, UINT_RANGE, hf, show Int.toNat 1 = 1 from rfl]
  simp only [Fp.cast_quot, h1, h2, Option.some_bind, h3]

theorem fp_add_big_one : Fp.add 10000000000000000 1 = some 10000000000000000 := by
  rw [Fp.add]
  norm_num [fl_big_one]

theorem fp_add_big_two : Fp.add 10000000000000000 2 = some 10000000000000002 := by
  rw [Fp.add]
  norm_num [fl_big_two]

theorem fp_add_one_one : Fp.add 1 1 = some 2 := by
  rw [Fp.add]
  norm_num [fl_two]

theorem fp_add_zero_one : Fp.add 0 1 = some 1 := by
  simp [Fp.add, fl_one]

theorem fp_add_zero_big : Fp.add 0 10000000000000000 = some 10000000000000000 := by
  simp [Fp.add, fl_big]

theorem fp_add_one_big : Fp.add 1 10000000000000000 = some 10000000000000000 := by
  rw [Fp.add]
  norm_num [fl_big_one]

theorem add_point_big (w : ℚ) :
    Fp.add_point grid_big [1] w =
      (Fp.add 10000000000000000 w).map fun v =>
        { grid_big with bin := { width := [1], element := [v] } } := by
  have hob : grid_big.out_of_bounds [1] = false := by
    norm_num [TBinnerND.out_of_bounds, grid_big, rd, List.range_succ]
  have hidx : Fp.bin_index grid_big [1] = some [0] := by
    simp [Fp.bin_index, grid_big, all_defined, rd, List.range_succ, fp_cast_quot_one_two]
  rw [Fp.add_point, hob, hidx]
  simp [Fp.add_at, in_range, flat_index, grid_big, rd]
  cases Fp.add 10000000000000000 w <;> simp

theorem fp_sum_scan_nil (n : ℚ) : Fp.sum_scan [] n = some n := rfl

theorem fp_sum_scan_cons (x : ℚ) (xs : List ℚ) (n v : ℚ) (h : Fp.add n x = some v) :
    Fp.sum_scan (x :: xs) n = Fp.sum_scan xs v := by
  simp [Fp.sum_scan, h]

theorem tiny_pos : 0 < tiny := by
  unfold tiny
  positivity

theorem fp_sub_tiny : Fp.sub tiny 0 = some tiny := by simp [Fp.sub, fl_tiny]

theorem fp_div_tiny : Fp.div tiny 2 = some 0 := by
  rw [Fp.div, if_neg (by norm_num), fl_half_tiny]

theorem tiny_above : rd [0] 0 < rd [tiny] 0 := by
  simpa [rd] using tiny_pos

theorem create_underflow (t : ℚ) (garbage : Nat → ℚ) (h1 : Fp.sub t 0 = some t)
    (h2 : Fp.div t 2 = some 0) :
    Fp.create [0] [t] [2] 1 garbage =
      some { bin := { width := [2], element := [0, 0] }, min := [0], max := [t], dx := [0],
             N := 1, index_workspace := [0] } := by
  simp [Fp.create, all_defined, rd, rdu, TBinnerND.clear, NDArray.fill,
    NDArray.create, h1, h2, List.range_succ]

theorem tiny_width_ne : (0 : ℚ) ≠ (rd [tiny] 0 - rd [0] 0) / (rdu [2] 0 : ℚ) := by
  have h3 : (0 : ℚ) < (rd [tiny] 0 - rd [0] 0) / (rdu [2] 0 : ℚ) :=
    div_pos (sub_pos.mpr tiny_above) (by simp [rdu])
  exact h3.ne

theorem print6_pos_near (x y : ℚ) (e n : Int) (hlo : (10 : ℚ) ^ e ≤ x)
    (hhi : x < (10 : ℚ) ^ (e + 1)) (h1 : (n : ℚ) - 1 / 2 < x / (10 : ℚ) ^ (e - 5))
    (h2 : x / (10 : ℚ) ^ (e - 5) < (n : ℚ) + 1 / 2) (hy : y = (n : ℚ) * (10 : ℚ) ^ (e - 5)) :
    print6 x = y := by
  have hpos : 0 < x := lt_of_lt_of_le (zpow_pos (by norm_num) e) hlo
  have habs : |x| = x := abs_of_pos hpos
  have hl1 : e ≤ Int.log 10 |x| := by
    rw [← Int.zpow_le_iff_le_log (by norm_num) (by rw [habs]; exact hpos)]
    simpa [habs] using hlo
  have hl2 : Int.log 10 |x| < e + 1 := by
    rw [← Int.lt_zpow_iff_log_lt (by norm_num) (by rw [habs]; exact hpos)]
    simpa [habs] using hhi
  have hl : Int.log 10 |x| = e := by omega
  have hr := round_even_of_near (x / (10 : ℚ) ^ (e - 5)) n
    (by rw [abs_lt]; constructor <;> linarith)
  simp only [print6, hpos.ne.symm, if_false, hl, hr, hy]

theorem print6_1234567 : print6 1234567 = 1234570 := by
  apply print6_pos_near 1234567 _ 6 123457 <;> norm_num

theorem create_pair (garbage : Nat → ℚ) : Fp.create [0] [4] [2] 1 garbage = some grid_pair := by
  have h1 : Fp.sub 4 0 = some 4 := by simp [Fp.sub, fl_four]
  have h2 : Fp.div 4 2 = some 2 := by
    rw [Fp.div, if_neg (by norm_num)]
    norm_num [fl_two]
  simp [Fp.create, all_defined, rd, rdu, TBinnerND.clear, NDArray.fill,
    NDArray.create, h1, h2, grid_pair, List.range_succ]

theorem add_point_pair_low (x y w v : ℚ) (ws : List Nat) (h : Fp.add x w = some v) :
    Fp.add_point (pair_state x y ws) [1] w =
      some (pair_state v y [0]) := by
  have hob : TBinnerND.out_of_bounds (pair_state x y ws) [1] = false := by
    norm_num [TBinnerND.out_of_bounds, pair_state, rd, List.range_succ]
  have hidx : Fp.bin_index (pair_state x y ws) [1] = some [0] := by
    simp [Fp.bin_index, pair_state, all_defined, rd, List.range_succ, fp_cast_quot_one_two]
  rw [Fp.add_point, hob, hidx]
  simp [Fp.add_at, in_range, flat_index, pair_state, rd, h]

theorem add_point_pair_high (x y w v : ℚ) (ws : List Nat) (h : Fp.add y w = some v) :
    Fp.add_point (pair_state x y ws) [3] w =
      some (pair_state x v [1]) := by
  have hob : TBinnerND.out_of_bounds (pair_state x y ws) [3] = false := by
    norm_num [TBinnerND.out_of_bounds, pair_state, rd, List.range_succ]
  have hidx : Fp.bin_index (pair_state x y ws) [3] = some [1] := by
    simp [Fp.bin_index, pair_state, all_defined, rd, List.range_succ, fp_cast_quot_three_two]
  rw [Fp.add_point, hob, hidx]
  simp [Fp.add_at, in_range, flat_index, pair_state, rd, h]

theorem fp_add_points_cons (b b' : TBinnerND) (p : List ℚ) (w : ℚ)
    (rest : List (List ℚ × ℚ)) (h : Fp.add_point b p w = some b') :
    Fp.add_points b ((p, w) :: rest) = Fp.add_points b' rest := by
  simp [Fp.add_points, h]

theorem add_points_big :
    Fp.add_points grid_pair points_big =
      some (pair_state 10000000000000000 2 [1]) := by
  have s1 := add_point_pair_high 0 0 1 1 [0] fp_add_zero_one
  have s2 := add_point_pair_low 0 1 10000000000000000 10000000000000000 [1] fp_add_zero_big
  have s3 := add_point_pair_low 10000000000000000 1 1 10000000000000000 [0] fp_add_big_one
  have s4 := add_point_pair_high 10000000000000000 1 1 2 [0] fp_add_one_one
  have e0 : grid_pair = pair_state 0 0 [0] := rfl
  rw [e0, points_big, fp_add_points_cons _ _ _ _ _ s1, fp_add_points_cons _ _ _ _ _ s2,
    fp_add_points_cons _ _ _ _ _ s3, fp_add_points_cons _ _ _ _ _ s4, Fp.add_points]

theorem points_big_inside : ∀ pw ∈ points_big, ∀ i < grid_pair.N,
    rd grid_pair.min i ≤ rd pw.1 i ∧ rd pw.1 i < rd grid_pair.max i := by
  intro pw hpw i hi
  have hi1 : i < 1 := hi
  simp only [points_big, List.mem_cons, List.mem_singleton, List.not_mem_nil, or_false] at hpw
  rcases hpw with rfl | rfl | rfl | rfl <;> interval_cases i <;> norm_num [grid_pair, rd]

theorem pair_bins_exact_sum : (pair_state 10000000000000000 2 [1]).bin.element.sum =
    10000000000000002 := by
  norm_num [pair_state]

theorem pair_bins_sum :
    Fp.sum_scan (pair_state 10000000000000000 2 [1]).bin.element 0 =
      some 10000000000000002 := by
  rw [show (pair_state 10000000000000000 2 [1]).bin.element = [10000000000000000, 2] from rfl,
    fp_sum_scan_cons _ _ _ _ fp_add_zero_big, fp_sum_scan_cons _ _ _ _ fp_add_big_two,
    fp_sum_scan_nil]

theorem points_big_exact_sum : (points_big.map fun pw => pw.2).sum = 10000000000000003 := by
  norm_num [points_big]

theorem points_big_sum :
    Fp.sum_scan (points_big.map fun pw => pw.2) 0 = some 10000000000000000 := by
  rw [show (points_big.map fun pw => pw.2) = [1, 10000000000000000, 1, 1] from by
      simp [points_big],
    fp_sum_scan_cons _ _ _ _ fp_add_zero_one, fp_sum_scan_cons _ _ _ _ fp_add_one_big,
    fp_sum_scan_cons _ _ _ _ fp_add_big_one, fp_sum_scan_cons _ _ _ _ fp_add_big_one,
    fp_sum_scan_nil]

/-! ## Lemmas on the points inside the bounds -/

theorem inside_eq_not_out_of_bounds (b : TBinnerND) (p : List ℚ) :
    decide (∀ i < b.N, rd b.min i ≤ rd p i ∧ rd p i ≤ rd b.max i) = !b.out_of_bounds p := by
  rw [Bool.eq_iff_iff]
  simp only [decide_eq_true_eq, Bool.not_eq_true', TBinnerND.out_of_bounds, List.any_eq_false,
    List.mem_range, Bool.or_eq_true, decide_eq_true_eq, not_or, not_lt, gt_iff_lt]

theorem inside_2d_eq_not_out_of_bounds {N : Nat} (b : TBinner2D N) (p : Fin N → ℚ)
    (h0 : b.bin_dim.1 < N) (h1 : b.bin_dim.2 < N) :
    (match coord p b.bin_dim.1, coord p b.bin_dim.2 with
      | some p0, some p1 =>
        decide (b.min.1 ≤ p0 ∧ p0 ≤ b.max.1 ∧ b.min.2 ≤ p1 ∧ p1 ≤ b.max.2)
      | _, _ => false) = !b.out_of_bounds p := by
  simp only [TBinner2D.out_of_bounds, coord, h0, h1, dif_pos]
  rw [Bool.eq_iff_iff]
  simp only [decide_eq_true_eq, Bool.not_eq_true', Bool.or_eq_false_iff, decide_eq_false_iff_not,
    not_lt, gt_iff_lt]
  tauto

/-! ## Theorems -/

theorem grid_2x3_valid : grid_2x3.Valid where
  width_len := rfl
  size := rfl
  count_pos := by
    intro i hi
    have hi2 : i < 2 := hi
    interval_cases i <;> simp [grid_2x3, rdu]
  count_lt := by
    intro i hi
    have hi2 : i < 2 := hi
    interval_cases i <;> simp [grid_2x3, rdu, UINT_RANGE]
  ordered := by
    intro i hi
    have hi2 : i < 2 := hi
    interval_cases i <;> norm_num [grid_2x3, rd]
  dx_eq := by
    intro i hi
    have hi2 : i < 2 := hi
    interval_cases i <;> norm_num [grid_2x3, rd, rdu]

/-- C2: a point with a coordinate below the lower bound or above the upper
bound of its axis is dropped by `TBinnerND::add_point`: the call succeeds and
the accumulator, with every bin of its grid, is what it was. -/
theorem add_point_outside_is_dropped (b : TBinnerND) (pos : List ℚ) (w : ℚ)
    (h : ∃ i, i < b.N ∧ (rd pos i < rd b.min i ∨ rd pos i > rd b.max i)) :
    b.add_point pos w = some b := by
  obtain ⟨i, hi, hout⟩ := h
  have hob : TBinnerND.out_of_bounds b pos = true := by
    simp only [TBinnerND.out_of_bounds, List.any_eq_true, List.mem_range, Bool.or_eq_true,
      decide_eq_true_eq]
    exact ⟨i, hi, hout⟩
  simp [TBinnerND.add_point, hob]

/-- Witness of C2: the point `(1/2, 21)` lies above the upper bound 20 of
axis 1 of the 2 by 3 grid. -/
theorem add_point_outside_is_dropped_witness :
    grid_2x3.add_point [1 / 2, 21] 7 = some grid_2x3 :=
  add_point_outside_is_dropped grid_2x3 [1 / 2, 21] 7
    ⟨1, by decide, Or.inr (by norm_num [grid_2x3, rd])⟩

/-- C3, amended: in exact arithmetic, for `TBinnerND` and for `TBinner2D`,
`add_point(p, w1)` followed by `add_point(p, w2)` gives the accumulator that
one `add_point(p, w1 + w2)` gives from the same state (and is undefined
exactly when that one call is). -/
theorem add_point_weights_add :
    (∀ (b : TBinnerND) (p : List ℚ) (w1 w2 : ℚ),
      (b.add_point p w1).bind (fun b1 => b1.add_point p w2) = b.add_point p (w1 + w2)) ∧
    (∀ (N : Nat) (b : TBinner2D N) (p : Fin N → ℚ) (w1 w2 : ℚ),
      (b.add_point p w1).bind (fun b1 => b1.add_point p w2) = b.add_point p (w1 + w2)) := by
  constructor
  · intro b p w1 w2
    by_cases hob : TBinnerND.out_of_bounds b p = true
    · simp [TBinnerND.add_point, hob]
    · cases hidx : TBinnerND.bin_index b p with
      | none => simp [TBinnerND.add_point, hob, hidx]
      | some idx =>
        have hsum := add_at_add_at b.bin idx w1 w2
        cases ha : b.bin.add_at idx w1 with
        | none =>
          rw [ha] at hsum
          simp only [Option.none_bind] at hsum
          simp [TBinnerND.add_point, hob, hidx, ha, ← hsum]
        | some a1 =>
          rw [ha] at hsum
          simp only [Option.some_bind] at hsum
          have hob1 : TBinnerND.out_of_bounds
              { b with index_workspace := idx, bin := a1 } p = false := by
            simpa [TBinnerND.out_of_bounds] using hob
          have hidx1 : TBinnerND.bin_index
              { b with index_workspace := idx, bin := a1 } p = some idx := by
            simpa [TBinnerND.bin_index] using hidx
          simp only [TBinnerND.add_point, hob, hidx, ha, Bool.false_eq_true, if_false,
            Option.some_bind, Option.map_some', hob1, hidx1, ← hsum]
  · intro N b p w1 w2
    cases hc0 : coord p b.bin_dim.1 with
    | none => simp [TBinner2D.add_point, hc0]
    | some p0 =>
      by_cases h0 : p0 < b.min.1 ∨ p0 > b.max.1
      · simp [TBinner2D.add_point, hc0, h0]
      · cases hc1 : coord p b.bin_dim.2 with
        | none => simp [TBinner2D.add_point, hc0, h0, hc1]
        | some p1 =>
          by_cases h1 : p1 < b.min.2 ∨ p1 > b.max.2
          · simp [TBinner2D.add_point, hc0, h0, hc1, h1]
          · cases hq0 : cast_quot (p0 - b.min.1) b.dx.1 with
            | none => simp [TBinner2D.add_point, hc0, h0, hc1, h1, hq0]
            | some i0 =>
              cases hq1 : cast_quot (p1 - b.min.2) b.dx.2 with
              | none => simp [TBinner2D.add_point, hc0, h0, hc1, h1, hq0, hq1]
              | some i1 =>
                have hsum := add_cell_add_cell b.bin i0 i1 w1 w2
                cases ha : add_cell b.bin i0 i1 w1 with
                | none =>
                  rw [ha] at hsum
                  simp only [Option.none_bind] at hsum
                  simp [TBinner2D.add_point, hc0, h0, hc1, h1, hq0, hq1, ha, ← hsum]
                | some bin1 =>
                  rw [ha] at hsum
                  simp only [Option.some_bind] at hsum
                  simp [TBinner2D.add_point, hc0, h0, hc1, h1, hq0, hq1, ha, ← hsum]

/-- C4, counterexample: the grid `[-1, -2]` has the nonzero maximum `-1`, yet
`normalize(to_peak=true)` computes `norm = 0`, not `-1`, and the division by
it leaves no finite bin, so no bin equals 1.  The grid is the one left by
adding the weights `-1` and `-2` to an empty accumulator. -/
theorem normalize_peak_negative_grid :
    (-1 : ℚ) ∈ grid_negative.bin.element ∧
    (∀ x ∈ grid_negative.bin.element, x ≤ -1) ∧
    (-1 : ℚ) ≠ 0 ∧
    grid_negative.norm_of true = 0 ∧
    grid_negative.norm_of true ≠ -1 ∧
    grid_negative.normalize true = none ∧
    ((TBinnerND.clear grid_negative).add_point [1 / 4] (-1)).bind
      (fun b => b.add_point [3 / 4] (-2)) = some grid_negative := by
  refine ⟨by simp [grid_negative], by simp [grid_negative], by norm_num, ?_, ?_, ?_, ?_⟩
  · norm_num [TBinnerND.norm_of, peak_scan, grid_negative]
  · norm_num [TBinnerND.norm_of, peak_scan, grid_negative]
  · norm_num [TBinnerND.normalize, TBinnerND.norm_of, peak_scan, grid_negative, div_scan,
      all_defined, fdiv]
  · norm_num [TBinnerND.add_point, TBinnerND.clear, NDArray.fill, grid_negative,
      TBinnerND.out_of_bounds, TBinnerND.bin_index, all_defined, cast_quot, fdiv, to_uint,
      trunc, UINT_RANGE, rd, NDArray.add_at, in_range, flat_index, List.range_succ,
      List.replicate]

/-- C4, amended: for every grid whose maximum bin is strictly positive,
`normalize(to_peak=true)` computes `norm` as the maximum bin and divides every
bin by it; the resulting grid has a bin equal to 1 and no bin above 1.  This
holds for `TBinnerND` and for `TBinner2D`. -/
theorem normalize_peak_positive :
    (∀ (b : TBinnerND) (m : ℚ), m ∈ b.bin.element → (∀ x ∈ b.bin.element, x ≤ m) → 0 < m →
      b.norm_of true = m ∧
      ∃ b', b.normalize true = some b' ∧
        b'.bin.element = b.bin.element.map (fun x => x / m) ∧
        b'.bin.width = b.bin.width ∧
        (1 : ℚ) ∈ b'.bin.element ∧ ∀ y ∈ b'.bin.element, y ≤ 1) ∧
    (∀ (N : Nat) (b : TBinner2D N) (m : ℚ), m ∈ b.bin.flatten →
      (∀ x ∈ b.bin.flatten, x ≤ m) → 0 < m →
      b.norm_of true = m ∧
      ∃ b', b.normalize true = some b' ∧
        b'.bin = b.bin.map (fun row => row.map fun x => x / m) ∧
        (1 : ℚ) ∈ b'.bin.flatten ∧ ∀ y ∈ b'.bin.flatten, y ≤ 1) := by
  have one_mem : ∀ (xs : List ℚ) (m : ℚ), m ∈ xs → 0 < m →
      (1 : ℚ) ∈ xs.map (fun x => x / m) := by
    intro xs m hm hpos
    exact List.mem_map.mpr ⟨m, hm, div_self hpos.ne.symm⟩
  have le_one : ∀ (xs : List ℚ) (m : ℚ), (∀ x ∈ xs, x ≤ m) → 0 < m →
      ∀ y ∈ xs.map (fun x => x / m), y ≤ 1 := by
    intro xs m hmax hpos y hy
    obtain ⟨x, hx, rfl⟩ := List.mem_map.mp hy
    exact (div_le_one hpos).mpr (hmax x hx)
  constructor
  · intro b m hm hmax hpos
    have hn : b.norm_of true = m := by
      simp [TBinnerND.norm_of, peak_scan_eq_max hm hmax hpos]
    refine ⟨hn, { b with bin := { b.bin with element := b.bin.element.map (fun x => x / m) } },
      ?_, rfl, rfl, one_mem _ _ hm hpos, le_one _ _ hmax hpos⟩
    simp [TBinnerND.normalize, hn, div_scan_eq _ hpos.ne.symm]
  · intro N b m hm hmax hpos
    have hn : b.norm_of true = m := by
      simp [TBinner2D.norm_of, peak_scan_rows, peak_scan_eq_max hm hmax hpos]
    have hfl : (b.bin.map fun row => row.map fun x => x / m).flatten =
        b.bin.flatten.map fun x => x / m := by
      rw [List.map_flatten]
    refine ⟨hn, { b with bin := b.bin.map (fun row => row.map fun x => x / m) },
      ?_, rfl, ?_, ?_⟩
    · simp [TBinner2D.normalize, hn, div_scan_rows _ hpos.ne.symm]
    · show (1 : ℚ) ∈ (b.bin.map fun row => row.map fun x => x / m).flatten
      rw [hfl]
      exact one_mem _ _ hm hpos
    · show ∀ y ∈ (b.bin.map fun row => row.map fun x => x / m).flatten, y ≤ 1
      rw [hfl]
      exact le_one _ _ hmax hpos

/-- Witness of C4: the grid `0, 0, 3, 0` has the maximum 3 and the plane
`1, 0, 0 / 0, 4, 0` has the maximum 4. -/
theorem normalize_peak_positive_witness :
    (grid_0030.norm_of true = 3 ∧
      ∃ b', grid_0030.normalize true = some b' ∧
        b'.bin.element = grid_0030.bin.element.map (fun x => x / 3) ∧
        b'.bin.width = grid_0030.bin.width ∧
        (1 : ℚ) ∈ b'.bin.element ∧ ∀ y ∈ b'.bin.element, y ≤ 1) ∧
    (plane_2x3.norm_of true = 4 ∧
      ∃ b', plane_2x3.normalize true = some b' ∧
        b'.bin = plane_2x3.bin.map (fun row => row.map fun x => x / 4) ∧
        (1 : ℚ) ∈ b'.bin.flatten ∧ ∀ y ∈ b'.bin.flatten, y ≤ 1) :=
  ⟨normalize_peak_positive.1 grid_0030 3 (by simp [grid_0030])
      (by norm_num [grid_0030]) (by norm_num),
    normalize_peak_positive.2 3 plane_2x3 4 (by simp [plane_2x3])
      (by norm_num [plane_2x3]) (by norm_num)⟩

/-- C6: on a `TBinner2D` whose grid has `width[0]` rows of `width[1]` bins and
whose selected axes are below `N`, `add_point(pos, w)` leaves the 2-axis
`TBinnerND` image of the state that `TBinnerND::add_point` leaves on the
projected point `(pos[bin_dim[0]], pos[bin_dim[1]])` with the same bounds and
bin counts (and is undefined exactly when that call is); the grid keeps its
shape and the bounds, widths and selected axes are unchanged; and the result is
the same for any sample that agrees with `pos` on the two selected coordinates. -/
theorem add_point_2d_refines_nd (N : Nat) (b : TBinner2D N) (pos : Fin N → ℚ) (w : ℚ)
    (ws : List Nat) (hs : b.Shaped) (h0 : b.bin_dim.1 < N) (h1 : b.bin_dim.2 < N) :
    (b.add_point pos w).map (fun b' => b'.to_nd ws) =
      ((b.to_nd ws).add_point [pos ⟨b.bin_dim.1, h0⟩, pos ⟨b.bin_dim.2, h1⟩] w).map
        (fun n => { n with index_workspace := ws }) ∧
    (∀ b', b.add_point pos w = some b' →
      b'.Shaped ∧ b'.min = b.min ∧ b'.max = b.max ∧ b'.dx = b.dx ∧ b'.width = b.width ∧
        b'.bin_dim = b.bin_dim) ∧
    (∀ pos' : Fin N → ℚ, pos' ⟨b.bin_dim.1, h0⟩ = pos ⟨b.bin_dim.1, h0⟩ →
      pos' ⟨b.bin_dim.2, h1⟩ = pos ⟨b.bin_dim.2, h1⟩ →
      b.add_point pos' w = b.add_point pos w) := by
  have hc0 : ∀ q : Fin N → ℚ, coord q b.bin_dim.1 = some (q ⟨b.bin_dim.1, h0⟩) := by
    intro q; simp [coord, h0]
  have hc1 : ∀ q : Fin N → ℚ, coord q b.bin_dim.2 = some (q ⟨b.bin_dim.2, h1⟩) := by
    intro q; simp [coord, h1]
  have h2d : b.add_point pos w =
      if pos ⟨b.bin_dim.1, h0⟩ < b.min.1 ∨ pos ⟨b.bin_dim.1, h0⟩ > b.max.1 then some b
      else if pos ⟨b.bin_dim.2, h1⟩ < b.min.2 ∨ pos ⟨b.bin_dim.2, h1⟩ > b.max.2 then some b
      else
        (cast_quot (pos ⟨b.bin_dim.1, h0⟩ - b.min.1) b.dx.1).bind fun i0 =>
          (cast_quot (pos ⟨b.bin_dim.2, h1⟩ - b.min.2) b.dx.2).bind fun i1 =>
            (add_cell b.bin i0 i1 w).map fun bin' => { b with bin := bin' } := by
    simp only [TBinner2D.add_point, hc0, hc1, Option.some_bind]
  have h3 : ∀ pos' : Fin N → ℚ, pos' ⟨b.bin_dim.1, h0⟩ = pos ⟨b.bin_dim.1, h0⟩ →
      pos' ⟨b.bin_dim.2, h1⟩ = pos ⟨b.bin_dim.2, h1⟩ →
      b.add_point pos' w = b.add_point pos w := by
    intro pos' e0 e1
    simp only [TBinner2D.add_point, hc0, hc1, e0, e1]
  refine ⟨?_, ?_, h3⟩ <;> clear h3
  all_goals generalize pos ⟨b.bin_dim.1, h0⟩ = p0 at h2d ⊢
  all_goals generalize pos ⟨b.bin_dim.2, h1⟩ = p1 at h2d ⊢
  · rw [h2d]
    by_cases hb0 : p0 < b.min.1 ∨ p0 > b.max.1
    · have hob : TBinnerND.out_of_bounds (b.to_nd ws) [p0, p1] = true := by
        rcases hb0 with h | h <;>
          simp [TBinnerND.out_of_bounds, TBinner2D.to_nd, List.range_succ, rd, h]
      simp [hb0, TBinnerND.add_point, hob]
      rfl
    · by_cases hb1 : p1 < b.min.2 ∨ p1 > b.max.2
      · have hob : TBinnerND.out_of_bounds (b.to_nd ws) [p0, p1] = true := by
          rcases hb1 with h | h <;>
            simp [TBinnerND.out_of_bounds, TBinner2D.to_nd, List.range_succ, rd, h]
        simp [hb0, hb1, TBinnerND.add_point, hob]
        rfl
      · have hob : TBinnerND.out_of_bounds (b.to_nd ws) [p0, p1] = false := by
          simp only [not_or, not_lt] at hb0 hb1
          simp [TBinnerND.out_of_bounds, TBinner2D.to_nd, List.range_succ, rd, hb0, hb1]
        have hbi : TBinnerND.bin_index (b.to_nd ws) [p0, p1] =
            (cast_quot (p0 - b.min.1) b.dx.1).bind fun i0 =>
              (cast_quot (p1 - b.min.2) b.dx.2).map fun i1 => [i0, i1] := by
          cases e0 : cast_quot (p0 - b.min.1) b.dx.1 <;>
            cases e1 : cast_quot (p1 - b.min.2) b.dx.2 <;>
            simp [TBinnerND.bin_index, TBinner2D.to_nd, List.range_succ, rd, all_defined, e0, e1]
        cases hq0 : cast_quot (p0 - b.min.1) b.dx.1 with
        | none => simp [hb0, hb1, TBinnerND.add_point, hob, hbi, hq0]
        | some i0 =>
          cases hq1 : cast_quot (p1 - b.min.2) b.dx.2 with
          | none => simp [hb0, hb1, TBinnerND.add_point, hob, hbi, hq0, hq1]
          | some i1 =>
            have hcell := add_cell_flatten b.bin b.width.1 b.width.2 i0 i1 w hs.1 hs.2
            simp only [hb0, hb1, if_false, TBinnerND.add_point, hob, hbi, hq0, hq1,
              Option.some_bind, Option.map_some', Bool.false_eq_true, Option.map_map]
            show _ = Option.map _ ((⟨[b.width.1, b.width.2], b.bin.flatten⟩ : NDArray).add_at
              [i0, i1] w)
            rw [← hcell, Option.map_map]
            rfl
  · intro b' hb'
    rw [h2d] at hb'
    have hsame : b.Shaped ∧ b.min = b.min ∧ b.max = b.max ∧ b.dx = b.dx ∧ b.width = b.width ∧
        b.bin_dim = b.bin_dim := ⟨hs, rfl, rfl, rfl, rfl, rfl⟩
    split at hb'
    · simp only [Option.some.injEq] at hb'
      subst hb'
      exact hsame
    · split at hb'
      · simp only [Option.some.injEq] at hb'
        subst hb'
        exact hsame
      · cases hq0 : cast_quot (p0 - b.min.1) b.dx.1 with
        | none => simp [hq0] at hb'
        | some i0 =>
          cases hq1 : cast_quot (p1 - b.min.2) b.dx.2 with
          | none => simp [hq0, hq1] at hb'
          | some i1 =>
            cases ha : add_cell b.bin i0 i1 w with
            | none => simp [hq0, hq1, ha] at hb'
            | some bin' =>
              simp only [hq0, hq1, ha, Option.some_bind, Option.map_some',
                Option.some.injEq] at hb'
              subst hb'
              exact ⟨add_cell_shape b.bin bin' b.width.1 b.width.2 i0 i1 w hs.1 hs.2 ha,
                rfl, rfl, rfl, rfl, rfl⟩

theorem plane_2x3_shaped : plane_2x3.Shaped := by
  simp [TBinner2D.Shaped, plane_2x3]

/-- Witness of C6: the sample `(199/10, 5, 3/4)` with weight 2 on the 2 by 3
plane that bins the axes 2 and 0. -/
theorem add_point_2d_refines_nd_witness :
    plane_2x3.Shaped ∧
    ∃ (h0 : plane_2x3.bin_dim.1 < 3) (h1 : plane_2x3.bin_dim.2 < 3),
      (plane_2x3.add_point ![199 / 10, 5, 3 / 4] 2).map (fun b' => b'.to_nd [0, 0]) =
        ((plane_2x3.to_nd [0, 0]).add_point
          [(![199 / 10, 5, 3 / 4] : Fin 3 → ℚ) ⟨plane_2x3.bin_dim.1, h0⟩,
            (![199 / 10, 5, 3 / 4] : Fin 3 → ℚ) ⟨plane_2x3.bin_dim.2, h1⟩] 2).map
          (fun n => { n with index_workspace := [0, 0] }) :=
  ⟨plane_2x3_shaped, by decide, by decide,
    (add_point_2d_refines_nd 3 plane_2x3 ![199 / 10, 5, 3 / 4] 2 [0, 0] plane_2x3_shaped
      (by decide) (by decide)).1⟩

/-- C7, counterexample: the grid `-1, 0, 3` has the strictly positive bin 3,
which is its minimum strictly positive bin, yet with `log_pdf=true` the zero
bin is written as the non-finite `log(-1) - 2`, not as `log(3) - 2`: the scan
keeps the smallest bin that is not zero, here `-1`. -/
theorem write_log_floor_negative_grid :
    ((3 : ℚ) ∈ grid_m103.bin.element ∧ (0 : ℚ) < 3 ∧
      ∀ x ∈ grid_m103.bin.element, 0 < x → (3 : ℚ) ≤ x) ∧
    min_scan grid_m103.bin.element none = some (-1) ∧
    ∀ log : ℚ → ℚ,
      grid_m103.out_values log true = [none, none, some (log 3)] ∧
      (grid_m103.out_values log true)[1]? ≠ some (some (log 3 - 2)) ∧
      grid_m103.write_to_file log true true =
        Output.ascii [⟨[1 / 2], none⟩, ⟨[3 / 2], none⟩, ⟨[5 / 2], some (log 3)⟩] := by
  refine ⟨⟨by simp [grid_m103], by norm_num, by norm_num [grid_m103]⟩, ?_, ?_⟩
  · norm_num [min_scan, grid_m103, below]
  · intro log
    have hv : grid_m103.out_values log true = [none, none, some (log 3)] := by
      norm_num [out_values_eq, TBinnerND.out_value, TBinnerND.log_floor, log_of_min, min_scan,
        grid_m103, below, flog]
    refine ⟨hv, by simp [hv], ?_⟩
    norm_num [TBinnerND.write_to_file, TBinnerND.ascii_lines, TBinnerND.line_coords,
      TBinnerND.out_value, TBinnerND.log_floor, log_of_min, min_scan, grid_m103, below, flog,
      NDArray.get_size, NDArray.get_element, multi_index, rd, rdu, List.range_succ]

/-- C7, amended: for every grid with a bin that is not zero, `m` being the
smallest bin that is not zero, `TBinnerND::write_to_file` with `log_pdf=true`
writes, in both encodings, every zero bin as `log(m) - 2` and every other bin
as `log(value)`, where the log of a value that is not positive is non-finite;
`m` is the minimum strictly positive bin when no bin is negative. -/
theorem write_log_floor (b : TBinnerND) (log : ℚ → ℚ) (m : ℚ) (hm : m ∈ b.bin.element)
    (hm0 : m ≠ 0) (hmin : ∀ x ∈ b.bin.element, x ≠ 0 → m ≤ x) :
    b.out_values log true =
      b.bin.element.map
        (fun x => if x = 0 then (flog log m).map (fun l => l - 2) else flog log x) ∧
    (∃ lines, b.write_to_file log true true = Output.ascii lines ∧
      lines.map (fun l => l.value) = b.out_values log true) ∧
    b.write_to_file log false true =
      Output.binary (b.header ++ (b.out_values log true).map Field.f64) ∧
    ((∀ x ∈ b.bin.element, 0 ≤ x) →
      0 < m ∧ (∀ x ∈ b.bin.element, 0 < x → m ≤ x) ∧
      b.out_values log true =
        b.bin.element.map (fun x => if x = 0 then some (log m - 2) else some (log x))) := by
  have hfloor : TBinnerND.log_floor b log true = flog log m := by
    simp [TBinnerND.log_floor, min_scan_eq_min hm hm0 hmin, log_of_min]
  have hv : b.out_values log true = b.bin.element.map
      (fun x => if x = 0 then (flog log m).map (fun l => l - 2) else flog log x) := by
    rw [out_values_eq, hfloor]
    apply List.map_congr_left
    intro x _
    simp [TBinnerND.out_value]
  refine ⟨hv, ⟨_, by simp [TBinnerND.write_to_file], ascii_lines_value b log true⟩,
    by simp [TBinnerND.write_to_file], ?_⟩
  intro hnn
  have hpos : 0 < m := lt_of_le_of_ne (hnn m hm) (Ne.symm hm0)
  refine ⟨hpos, fun x hx hx0 => hmin x hx hx0.ne.symm, ?_⟩
  rw [hv]
  apply List.map_congr_left
  intro x hx
  by_cases h0 : x = 0
  · simp [h0, flog, hpos]
  · have : 0 < x := lt_of_le_of_ne (hnn x hx) (Ne.symm h0)
    simp [h0, flog, this]

/-- Witness of C7: the 1-D grid `0, 0, 3, 0` is written as
`log 3 - 2, log 3 - 2, log 3, log 3 - 2`. -/
theorem write_log_floor_witness :
    ((3 : ℚ) ∈ grid_0030.bin.element ∧ (3 : ℚ) ≠ 0 ∧
      ∀ x ∈ grid_0030.bin.element, x ≠ 0 → (3 : ℚ) ≤ x) ∧
    ∀ log : ℚ → ℚ,
      grid_0030.out_values log true =
        [some (log 3 - 2), some (log 3 - 2), some (log 3), some (log 3 - 2)] := by
  have h1 : (3 : ℚ) ∈ grid_0030.bin.element := by simp [grid_0030]
  have h2 : ∀ x ∈ grid_0030.bin.element, x ≠ 0 → (3 : ℚ) ≤ x := by
    norm_num [grid_0030]
  refine ⟨⟨h1, by norm_num, h2⟩, fun log => ?_⟩
  have h := (write_log_floor grid_0030 log 3 h1 (by norm_num) h2).1
  rw [h]
  norm_num [grid_0030, flog]

/-- C8: with `log_pdf=false` the N-D writer does not write the raw bins: in both
encodings the value written for a bin is `log(value)`, so a zero bin is written
as the non-finite `log(0)`.  On the grid `0, 0, 3, 0` the values written are
`log(0), log(0), log(3), log(0)` and not `0, 0, 3, 0`. -/
theorem write_raw_applies_log (log : ℚ → ℚ) :
    (∀ b : TBinnerND, b.out_values log false = b.bin.element.map (flog log)) ∧
    grid_0030.out_values log false = [none, none, some (log 3), none] ∧
    grid_0030.out_values log false ≠ grid_0030.bin.element.map some ∧
    grid_0030.write_to_file log true false =
      Output.ascii [⟨[1 / 2], none⟩, ⟨[3 / 2], none⟩, ⟨[5 / 2], some (log 3)⟩,
        ⟨[7 / 2], none⟩] ∧
    grid_0030.write_to_file log false false =
      Output.binary [Field.u32 1, Field.u32 4, Field.f64 (some 0), Field.f64 (some 4),
        Field.f64 (some 1), Field.f64 none, Field.f64 none, Field.f64 (some (log 3)),
        Field.f64 none] := by
  have hall : ∀ b : TBinnerND, b.out_values log false = b.bin.element.map (flog log) := by
    intro b
    rw [out_values_eq]
    apply List.map_congr_left
    intro x _
    simp [TBinnerND.out_value]
  have hv : grid_0030.out_values log false = [none, none, some (log 3), none] := by
    rw [hall]
    norm_num [grid_0030, flog]
  refine ⟨hall, hv, ?_, ?_, ?_⟩
  · rw [hv]
    simp [grid_0030]
  · norm_num [TBinnerND.write_to_file, TBinnerND.ascii_lines, TBinnerND.line_coords,
      TBinnerND.out_value, TBinnerND.log_floor, grid_0030, flog,
      NDArray.get_size, NDArray.get_element, multi_index, rd, rdu, List.range_succ]
  · rw [TBinnerND.write_to_file, hv]
    norm_num [TBinnerND.header, TBinnerND.header_record, NDArray.get_width, grid_0030, rd, rdu,
      List.range_succ]

/-- C9: the ascii line of a bin of the N-D writer carries, on every axis `n`,
the coordinate `lower_bound[0] + bin_width[0] * (index[n] + 0.5)`: the bounds
and the width of axis 0 are used for all axes.  On the 2 by 3 grid with axis 1
on `[10, 20]` the first line has the coordinates `1/4, 1/4`, while the centre
of the bin `(0, 0)` is `1/4, 35/3`. -/
theorem ascii_coords_use_axis_zero :
    (∀ (b : TBinnerND) (k : Nat), b.line_coords k =
      (List.range b.N).map fun n =>
        rd b.min 0 + rd b.dx 0 * ((rdu (multi_index b.bin.width k) n : ℚ) + 1 / 2)) ∧
    multi_index grid_2x3.bin.width 0 = [0, 0] ∧
    grid_2x3.line_coords 0 = [1 / 4, 1 / 4] ∧
    ((List.range grid_2x3.N).map fun i =>
      rd grid_2x3.min i + rd grid_2x3.dx i * ((rdu [0, 0] i : ℚ) + 1 / 2)) = [1 / 4, 35 / 3] ∧
    ∀ log : ℚ → ℚ, (match grid_2x3.write_to_file log true true with
      | Output.ascii lines => lines.map (fun l => l.coords)
      | Output.binary _ => []) =
        [[1 / 4, 1 / 4], [1 / 4, 3 / 4], [1 / 4, 5 / 4],
         [3 / 4, 1 / 4], [3 / 4, 3 / 4], [3 / 4, 5 / 4]] := by
  refine ⟨fun b k => rfl, by simp [grid_2x3, multi_index], ?_, ?_, ?_⟩
  · norm_num [TBinnerND.line_coords, grid_2x3, multi_index, rd, rdu, List.range_succ]
  · norm_num [grid_2x3, rd, rdu, List.range_succ]
  · intro log
    norm_num [TBinnerND.write_to_file, TBinnerND.ascii_lines, TBinnerND.line_coords, grid_2x3,
      NDArray.get_size, multi_index, rd, rdu, List.range_succ]

/-- C10: in binary mode `TBinnerND::write_to_file` writes first the header, which
is one record per axis in axis order, record `i` being the fields
`N, axis_bin_count[i], lower_bound[i], upper_bound[i], bin_width[i]`, and then
the values; for an accumulator of at least one axis whose arrays have `N`
entries, reading the file back by that layout gives `N` records that hold
the original bin counts, lower bounds, upper bounds and bin widths, and leaves
the values. -/
theorem binary_header_round_trip (b : TBinnerND) (log : ℚ → ℚ) (log_pdf : Bool)
    (hN : 1 ≤ b.N) (hw : b.bin.width.length = b.N) (hmin : b.min.length = b.N)
    (hmax : b.max.length = b.N) (hdx : b.dx.length = b.N) :
    ∃ fields recs,
      b.write_to_file log false log_pdf = Output.binary fields ∧
      fields = ((List.range b.N).map fun i =>
          [Field.u32 b.N, Field.u32 (rdu b.bin.width i), Field.f64 (some (rd b.min i)),
            Field.f64 (some (rd b.max i)), Field.f64 (some (rd b.dx i))]).flatten ++
        (b.out_values log log_pdf).map Field.f64 ∧
      parse_header fields = some (recs, (b.out_values log log_pdf).map Field.f64) ∧
      recs.length = b.N ∧
      (∀ r ∈ recs, r.dimension_count = b.N) ∧
      recs.map (fun r => r.axis_bin_count) = b.bin.width ∧
      recs.map (fun r => r.lower_bound) = b.min ∧
      recs.map (fun r => r.upper_bound) = b.max ∧
      recs.map (fun r => r.bin_width) = b.dx := by
  have hparse : parse_header (b.header ++ (b.out_values log log_pdf).map Field.f64) =
      some ((List.range b.N).map (axis_record b), (b.out_values log log_pdf).map Field.f64) := by
    have h := parse_records_header b (List.range b.N) ((b.out_values log log_pdf).map Field.f64)
    rw [List.length_range] at h
    obtain ⟨n, hn⟩ : ∃ n, b.N = n + 1 := ⟨b.N - 1, by omega⟩
    have hhead : ∃ tl, b.header ++ (b.out_values log log_pdf).map Field.f64 =
        Field.u32 b.N :: tl := by
      simp [TBinnerND.header, hn, List.range_succ_eq_map, TBinnerND.header_record]
    obtain ⟨tl, htl⟩ := hhead
    rw [htl, parse_header_cons, ← htl]
    exact h
  refine ⟨b.header ++ (b.out_values log log_pdf).map Field.f64,
    (List.range b.N).map (axis_record b), by simp [TBinnerND.write_to_file], rfl,
    hparse, by simp, ?_, ?_, ?_, ?_, ?_⟩
  · intro r hr
    obtain ⟨i, _, rfl⟩ := List.mem_map.mp hr
    rfl
  · rw [List.map_map, ← hw]
    exact map_range_rdu_id b.bin.width
  · rw [List.map_map, ← hmin]
    exact map_range_rd_id b.min
  · rw [List.map_map, ← hmax]
    exact map_range_rd_id b.max
  · rw [List.map_map, ← hdx]
    exact map_range_rd_id b.dx

/-- Witness of C10: the header of the 2 by 3 grid reads back as its two
records. -/
theorem binary_header_round_trip_witness :
    (1 ≤ grid_2x3.N ∧ grid_2x3.bin.width.length = grid_2x3.N ∧
      grid_2x3.min.length = grid_2x3.N ∧ grid_2x3.max.length = grid_2x3.N ∧
      grid_2x3.dx.length = grid_2x3.N) ∧
    ∀ (log : ℚ → ℚ) (log_pdf : Bool), ∃ fields recs,
      grid_2x3.write_to_file log false log_pdf = Output.binary fields ∧
      fields = ((List.range grid_2x3.N).map fun i =>
          [Field.u32 grid_2x3.N, Field.u32 (rdu grid_2x3.bin.width i),
            Field.f64 (some (rd grid_2x3.min i)), Field.f64 (some (rd grid_2x3.max i)),
            Field.f64 (some (rd grid_2x3.dx i))]).flatten ++
        (grid_2x3.out_values log log_pdf).map Field.f64 ∧
      parse_header fields = some (recs, (grid_2x3.out_values log log_pdf).map Field.f64) ∧
      recs.length = grid_2x3.N ∧
      (∀ r ∈ recs, r.dimension_count = grid_2x3.N) ∧
      recs.map (fun r => r.axis_bin_count) = grid_2x3.bin.width ∧
      recs.map (fun r => r.lower_bound) = grid_2x3.min ∧
      recs.map (fun r => r.upper_bound) = grid_2x3.max ∧
      recs.map (fun r => r.bin_width) = grid_2x3.dx :=
  ⟨⟨by decide, rfl, rfl, rfl, rfl⟩, fun log log_pdf =>
    binary_header_round_trip grid_2x3 log log_pdf (by decide) rfl rfl rfl rfl⟩

/-- C11, counterexample: the binary header of the 2 by 3 plane has 8 fields, two
records of 4, while the header of the 2-axis `TBinnerND` with the same bounds
and bin counts has 10 fields, two records of 5: the 2-D writer writes no
dimension count. -/
theorem header_2d_differs_from_nd :
    plane_2x3.header =
      [Field.u32 2, Field.f64 (some 0), Field.f64 (some 1), Field.f64 (some (1 / 2)),
       Field.u32 3, Field.f64 (some 10), Field.f64 (some 20), Field.f64 (some (10 / 3))] ∧
    (plane_2x3.to_nd [0, 0]).header =
      [Field.u32 2, Field.u32 2, Field.f64 (some 0), Field.f64 (some 1),
        Field.f64 (some (1 / 2)),
       Field.u32 2, Field.u32 3, Field.f64 (some 10), Field.f64 (some 20),
        Field.f64 (some (10 / 3))] ∧
    plane_2x3.header ≠ (plane_2x3.to_nd [0, 0]).header ∧
    (∀ log log_pdf, plane_2x3.write_to_file log false log_pdf ≠
      (plane_2x3.to_nd [0, 0]).write_to_file log false log_pdf) := by
  have h1 : plane_2x3.header =
      [Field.u32 2, Field.f64 (some 0), Field.f64 (some 1), Field.f64 (some (1 / 2)),
       Field.u32 3, Field.f64 (some 10), Field.f64 (some 20), Field.f64 (some (10 / 3))] := by
    simp [TBinner2D.header, plane_2x3]
  have h2 : (plane_2x3.to_nd [0, 0]).header =
      [Field.u32 2, Field.u32 2, Field.f64 (some 0), Field.f64 (some 1),
        Field.f64 (some (1 / 2)),
       Field.u32 2, Field.u32 3, Field.f64 (some 10), Field.f64 (some 20),
        Field.f64 (some (10 / 3))] := by
    simp [TBinnerND.header, TBinnerND.header_record, TBinner2D.to_nd, plane_2x3,
      NDArray.get_width, rd, rdu, List.range_succ]
  refine ⟨h1, h2, ?_, ?_⟩
  · rw [h1, h2]
    simp
  · intro log log_pdf
    simp only [TBinner2D.write_to_file, TBinnerND.write_to_file, h1, h2]
    simp

/-- C11, amended: the binary header written by `TBinner2D::write_to_file` is, for
each of the 2 axes in order, the record
`(axis_bin_count[i], lower_bound[i], upper_bound[i], bin_width[i])`; the header
of the 2-axis `TBinnerND` with the same bounds and bin counts is the same two
records, each preceded by the dimension count 2. -/
theorem header_2d_is_nd_without_dimension :
    ∀ (N : Nat) (b : TBinner2D N) (ws : List Nat) (log : ℚ → ℚ) (log_pdf : Bool),
      ∃ r0 r1 : List Field,
        r0 = [Field.u32 b.width.1, Field.f64 (some b.min.1), Field.f64 (some b.max.1),
          Field.f64 (some b.dx.1)] ∧
        r1 = [Field.u32 b.width.2, Field.f64 (some b.min.2), Field.f64 (some b.max.2),
          Field.f64 (some b.dx.2)] ∧
        b.write_to_file log false log_pdf =
          Output.binary (r0 ++ r1 ++ (b.out_values log log_pdf).map Field.f64) ∧
        (b.to_nd ws).header = Field.u32 2 :: r0 ++ Field.u32 2 :: r1 := by
  intro N b ws log log_pdf
  refine ⟨_, _, rfl, rfl, ?_, ?_⟩
  · simp [TBinner2D.write_to_file, TBinner2D.header]
  · simp [TBinnerND.header, TBinnerND.header_record, TBinner2D.to_nd, NDArray.get_width, rd,
      rdu, List.range_succ]

/-- C12: for a collector whose members are pairwise distinct accumulators, on
each of which `add_point(p, w)` is defined, one call of `operator()(p, w)`
leaves every member as its own `add_point(p, w)` leaves it from its prior
state, leaves every other accumulator as it was, and leaves the sequence of
members unchanged. -/
theorem broadcast_is_add_point_on_each (N : Nat) (m : TMultiBinner N) (heap : Heap N)
    (p : Fin N → ℚ) (w : ℚ) (hnd : m.binner_arr.Nodup)
    (hdef : ∀ a ∈ m.binner_arr, ∃ b b', heap[a]? = some b ∧ b.add_point p w = some b') :
    ∃ heap', m.call heap p w = some (m, heap') ∧
      heap'.length = heap.length ∧
      (∀ a ∈ m.binner_arr, heap'[a]? = (heap[a]?).bind fun b => b.add_point p w) ∧
      (∀ a, a ∉ m.binner_arr → heap'[a]? = heap[a]?) := by
  obtain ⟨heap', h1, h2, h3, h4⟩ := broadcast_loop_spec m.binner_arr heap p w hnd hdef
  exact ⟨heap', by simp [TMultiBinner.call, h1], h2, h3, h4⟩

/-- Witness of C12: the collector of three members receives the sample
`(199/10, 5, 3/4)` with weight 2. -/
theorem broadcast_is_add_point_on_each_witness :
    collector_of_three.binner_arr.Nodup ∧
    (∀ a ∈ collector_of_three.binner_arr, ∃ b b', heap_of_three[a]? = some b ∧
      b.add_point ![199 / 10, 5, 3 / 4] 2 = some b') ∧
    ∃ heap', collector_of_three.call heap_of_three ![199 / 10, 5, 3 / 4] 2 =
        some (collector_of_three, heap') ∧
      heap'.length = heap_of_three.length ∧
      (∀ a ∈ collector_of_three.binner_arr,
        heap'[a]? = (heap_of_three[a]?).bind fun b => b.add_point ![199 / 10, 5, 3 / 4] 2) ∧
      (∀ a, a ∉ collector_of_three.binner_arr → heap'[a]? = heap_of_three[a]?) := by
  have hnd : collector_of_three.binner_arr.Nodup := by decide
  have hdef : ∀ a ∈ collector_of_three.binner_arr, ∃ b b', heap_of_three[a]? = some b ∧
      b.add_point ![199 / 10, 5, 3 / 4] 2 = some b' := by
    intro a ha
    simp only [collector_of_three, List.mem_cons, List.mem_singleton, List.not_mem_nil,
      or_false] at ha
    have h0 : coord (![199 / 10, 5, 3 / 4] : Fin 3 → ℚ) 0 = some (199 / 10) := by simp [coord]
    have h1 : coord (![199 / 10, 5, 3 / 4] : Fin 3 → ℚ) 1 = some 5 := by simp [coord]
    have h2 : coord (![199 / 10, 5, 3 / 4] : Fin 3 → ℚ) 2 = some (3 / 4) := by simp [coord]
    rcases ha with rfl | rfl | rfl
    · refine ⟨plane_1x1, { plane_1x1 with bin := [[9]] }, rfl, ?_⟩
      simp only [TBinner2D.add_point, plane_1x1, h1]
      norm_num [cast_quot, fdiv, to_uint, trunc, UINT_RANGE, add_cell, rd]
    · refine ⟨plane_2x3, { plane_2x3 with bin := [[1, 0, 0], [0, 4, 2]] }, rfl, ?_⟩
      simp only [TBinner2D.add_point, plane_2x3, h0, h2]
      norm_num [cast_quot, fdiv, to_uint, trunc, UINT_RANGE, add_cell, rd,
        show Int.toNat 2 = 2 from rfl]
    · refine ⟨{ plane_2x3 with bin := [[0, 0, 0], [0, 0, 0]] },
        { plane_2x3 with bin := [[0, 0, 0], [0, 0, 2]] }, rfl, ?_⟩
      simp only [TBinner2D.add_point, plane_2x3, h0, h2]
      norm_num [cast_quot, fdiv, to_uint, trunc, UINT_RANGE, add_cell, rd,
        show Int.toNat 2 = 2 from rfl]
  exact ⟨hnd, hdef,
    broadcast_is_add_point_on_each 3 collector_of_three heap_of_three ![199 / 10, 5, 3 / 4] 2
      hnd hdef⟩

/-- C13, counterexample: after `2 ^ 32` calls of `add_binner`,
`get_num_binners()` returns 0, not the number of calls, because the size of
the vector is converted to `unsigned int`; and `get_binner(0)` does not fail,
although 0 is not below `get_num_binners()`. -/
theorem get_num_binners_wraps :
    (((List.replicate UINT_RANGE 0).foldl TMultiBinner.add_binner
        (TMultiBinner.create : TMultiBinner 3)).get_num_binners = 0 ∧
      (List.replicate UINT_RANGE 0).length = UINT_RANGE ∧ UINT_RANGE ≠ 0) ∧
    ((List.replicate UINT_RANGE 0).foldl TMultiBinner.add_binner
        (TMultiBinner.create : TMultiBinner 3)).get_binner 0 = some 0 := by
  have hpos : 0 < UINT_RANGE := by norm_num [UINT_RANGE]
  have harr := foldl_add_binner (TMultiBinner.create : TMultiBinner 3)
    (List.replicate UINT_RANGE 0)
  have hnil : (TMultiBinner.create : TMultiBinner 3).binner_arr = [] := rfl
  rw [hnil, List.nil_append] at harr
  refine ⟨⟨?_, List.length_replicate _ _, hpos.ne.symm⟩, ?_⟩
  · rw [TMultiBinner.get_num_binners, harr, List.length_replicate, Nat.mod_self]
  · rw [TMultiBinner.get_binner, harr, List.length_replicate, if_pos hpos,
      List.getElem?_replicate, if_pos hpos]

/-- C13, amended: `add_binner` appends, so after a sequence of `add_binner` calls on
an empty collector the members are the accumulators inserted, in insertion
order; `get_binner(i)` returns the `i`-th of them and fails if and only if `i`
is not below the number of calls; `get_num_binners()` returns the number of
calls modulo `2 ^ 32`, hence the number of calls, and the bound at which
`get_binner` fails, when there are fewer than `2 ^ 32` of them. -/
theorem collector_membership :
    ∀ (N : Nat) (hs : List Nat),
      ((hs.foldl TMultiBinner.add_binner (TMultiBinner.create : TMultiBinner N)).binner_arr
        = hs) ∧
      ((hs.foldl TMultiBinner.add_binner (TMultiBinner.create : TMultiBinner N)).get_num_binners
        = hs.length % UINT_RANGE) ∧
      (∀ i, (hs.foldl TMultiBinner.add_binner (TMultiBinner.create : TMultiBinner N)).get_binner i
        = hs[i]?) ∧
      (∀ i, (hs.foldl TMultiBinner.add_binner (TMultiBinner.create : TMultiBinner N)).get_binner i
        = none ↔ hs.length ≤ i) ∧
      (hs.length < UINT_RANGE →
        (hs.foldl TMultiBinner.add_binner
          (TMultiBinner.create : TMultiBinner N)).get_num_binners = hs.length ∧
        ∀ i, (hs.foldl TMultiBinner.add_binner
            (TMultiBinner.create : TMultiBinner N)).get_binner i = none ↔
          (hs.foldl TMultiBinner.add_binner
            (TMultiBinner.create : TMultiBinner N)).get_num_binners ≤ i) := by
  intro N hs
  have harr := foldl_add_binner (TMultiBinner.create : TMultiBinner N) hs
  have hnil : (TMultiBinner.create : TMultiBinner N).binner_arr = [] := rfl
  rw [hnil, List.nil_append] at harr
  have hget : ∀ i, (hs.foldl TMultiBinner.add_binner
      (TMultiBinner.create : TMultiBinner N)).get_binner i = hs[i]? := by
    intro i
    rw [TMultiBinner.get_binner, harr]
    split
    · rfl
    · rename_i h
      rw [List.getElem?_eq_none (by omega)]
  have hnone : ∀ i, (hs.foldl TMultiBinner.add_binner
      (TMultiBinner.create : TMultiBinner N)).get_binner i = none ↔ hs.length ≤ i := by
    intro i
    rw [hget, List.getElem?_eq_none_iff]
  have hnum : (hs.foldl TMultiBinner.add_binner
      (TMultiBinner.create : TMultiBinner N)).get_num_binners = hs.length % UINT_RANGE := by
    rw [TMultiBinner.get_num_binners, harr]
  refine ⟨harr, hnum, hget, hnone, fun hlt => ?_⟩
  have hnum' := hnum
  rw [Nat.mod_eq_of_lt hlt] at hnum'
  exact ⟨hnum', fun i => by rw [hnone, hnum']⟩

/-- Witness of C13: three insertions, of the accumulators 2, 0 and 1. -/
theorem collector_membership_witness :
    ([2, 0, 1] : List Nat).length < UINT_RANGE ∧
    (([2, 0, 1] : List Nat).foldl TMultiBinner.add_binner
      (TMultiBinner.create : TMultiBinner 3)).get_num_binners = ([2, 0, 1] : List Nat).length ∧
    ∀ i, (([2, 0, 1] : List Nat).foldl TMultiBinner.add_binner
        (TMultiBinner.create : TMultiBinner 3)).get_binner i = none ↔
      (([2, 0, 1] : List Nat).foldl TMultiBinner.add_binner
        (TMultiBinner.create : TMultiBinner 3)).get_num_binners ≤ i :=
  ⟨by norm_num [UINT_RANGE],
    (collector_membership 3 [2, 0, 1]).2.2.2.2 (by norm_num [UINT_RANGE])⟩

/-- C16, amended: in exact arithmetic, for bounds and bin counts with
`axis_bin_count[i] >= 1` and `upper_bound[i] > lower_bound[i]` on every axis,
and whatever the allocated memory held, the constructors of `TBinnerND` and of
`TBinner2D` (the latter with selected axes below `N`) give an accumulator that
stores the given bounds and bin counts, has
`bin_width[i] = (upper_bound[i] - lower_bound[i]) / axis_bin_count[i] > 0` on
every axis, has every bin equal to 0, and satisfies the invariant of a
constructed accumulator. -/
theorem construction_invariant :
    (∀ (_min _max : List ℚ) (width : List Nat) (N : Nat) (garbage : Nat → ℚ),
      _min.length = N → _max.length = N → width.length = N →
      (∀ i < N, 1 ≤ rdu width i ∧ rdu width i < UINT_RANGE) →
      (∀ i < N, rd _min i < rd _max i) →
      ∃ b, TBinnerND.create _min _max width N garbage = some b ∧
        b.min = _min ∧ b.max = _max ∧ b.N = N ∧ b.bin.width = width ∧
        b.dx.length = N ∧
        (∀ i < N, rd b.dx i = (rd _max i - rd _min i) / (rdu width i : ℚ) ∧ 0 < rd b.dx i) ∧
        b.bin.get_size = width.prod ∧
        (∀ x ∈ b.bin.element, x = 0) ∧
        b.Valid) ∧
    (∀ (N : Nat) (_min _max : ℚ × ℚ) (_width _bin_dim : Nat × Nat) (garbage : Nat → Nat → ℚ),
      _bin_dim.1 < N → _bin_dim.2 < N →
      (1 ≤ _width.1 ∧ _width.1 < UINT_RANGE) → (1 ≤ _width.2 ∧ _width.2 < UINT_RANGE) →
      _min.1 < _max.1 → _min.2 < _max.2 →
      ∃ b : TBinner2D N, TBinner2D.create _min _max _width _bin_dim garbage = some b ∧
        b.min = _min ∧ b.max = _max ∧ b.width = _width ∧ b.bin_dim = _bin_dim ∧
        b.dx.1 = (_max.1 - _min.1) / (_width.1 : ℚ) ∧ 0 < b.dx.1 ∧
        b.dx.2 = (_max.2 - _min.2) / (_width.2 : ℚ) ∧ 0 < b.dx.2 ∧
        (∀ row ∈ b.bin, ∀ x ∈ row, x = 0) ∧
        b.Valid) := by
  constructor
  · intro _min _max width N garbage hmin hmax hw hcount hord
    have hcreate := create_nd_eq _min _max width N hmin hmax hw (fun i hi => (hcount i hi).1)
      garbage
    have hdx : ∀ i < N,
        rd ((List.range N).map fun i => (rd _max i - rd _min i) / (rdu width i : ℚ)) i =
          (rd _max i - rd _min i) / (rdu width i : ℚ) := fun i hi => rd_map_range N _ i hi
    refine ⟨_, hcreate, rfl, rfl, rfl, rfl, by simp, ?_, by simp [NDArray.get_size], ?_, ?_⟩
    · intro i hi
      refine ⟨hdx i hi, ?_⟩
      show 0 < rd ((List.range N).map fun i => (rd _max i - rd _min i) / (rdu width i : ℚ)) i
      rw [hdx i hi]
      have h1 : (0 : ℚ) < (rdu width i : ℚ) := by exact_mod_cast (hcount i hi).1
      exact div_pos (sub_pos.mpr (hord i hi)) h1
    · intro x hx
      exact List.eq_of_mem_replicate hx
    · exact
        { width_len := hw
          size := by simp
          count_pos := fun i hi => (hcount i hi).1
          count_lt := fun i hi => (hcount i hi).2
          ordered := hord
          dx_eq := hdx }
  · intro N _min _max _width _bin_dim garbage hd0 hd1 hw0 hw1 ho0 ho1
    have hn0 : (_width.1 : ℚ) ≠ 0 := by
      have : 0 < _width.1 := hw0.1
      exact_mod_cast this.ne.symm
    have hn1 : (_width.2 : ℚ) ≠ 0 := by
      have : 0 < _width.2 := hw1.1
      exact_mod_cast this.ne.symm
    have hp0 : (0 : ℚ) < (_width.1 : ℚ) := by exact_mod_cast hw0.1
    have hp1 : (0 : ℚ) < (_width.2 : ℚ) := by exact_mod_cast hw1.1
    refine ⟨{ min := _min, max := _max,
              dx := ((_max.1 - _min.1) / (_width.1 : ℚ), (_max.2 - _min.2) / (_width.2 : ℚ)),
              width := _width, bin_dim := _bin_dim,
              bin := List.replicate _width.1 (List.replicate _width.2 0) },
      ?_, rfl, rfl, rfl, rfl, rfl, div_pos (sub_pos.mpr ho0) hp0, rfl,
      div_pos (sub_pos.mpr ho1) hp1, ?_, ?_⟩
    · simp [TBinner2D.create, hd0, hd1, fdiv, hn0, hn1, TBinner2D.clear]
    · intro row hrow x hx
      rw [List.eq_of_mem_replicate hrow] at hx
      exact List.eq_of_mem_replicate hx
    · exact
        { shaped := ⟨by simp, fun row hrow => by
            rw [List.eq_of_mem_replicate hrow]; simp⟩
          axes := ⟨hd0, hd1⟩
          count_pos := ⟨hw0.1, hw1.1⟩
          count_lt := ⟨hw0.2, hw1.2⟩
          ordered := ⟨ho0, ho1⟩
          dx_eq := ⟨rfl, rfl⟩ }

/-- Witness of C16: the 2 by 3 grid on `[0, 1]` and `[10, 20]`, as a `TBinnerND`
allocated over memory that held `k + 7` at the linear index `k`, and as a
`TBinner2D` of the axes 2 and 0 of a 3-dimensional sample space, allocated
over memory that held `j - k` in the bin `k` of the row `j`. -/
theorem construction_invariant_witness :
    (∃ b, TBinnerND.create [0, 10] [1, 20] [2, 3] 2 (fun k => (k : ℚ) + 7) = some b ∧
        b.min = [0, 10] ∧ b.max = [1, 20] ∧ b.N = 2 ∧ b.bin.width = [2, 3] ∧
        b.dx.length = 2 ∧
        (∀ i < 2, rd b.dx i = (rd [1, 20] i - rd [0, 10] i) / (rdu [2, 3] i : ℚ) ∧
          0 < rd b.dx i) ∧
        b.bin.get_size = ([2, 3] : List Nat).prod ∧
        (∀ x ∈ b.bin.element, x = 0) ∧
        b.Valid) ∧
    (∃ b : TBinner2D 3, TBinner2D.create (0, 10) (1, 20) (2, 3) (2, 0)
        (fun j k => (j : ℚ) - (k : ℚ)) = some b ∧
        b.min = (0, 10) ∧ b.max = (1, 20) ∧ b.width = (2, 3) ∧ b.bin_dim = (2, 0) ∧
        b.dx.1 = (((1 : ℚ), (20 : ℚ)).1 - ((0 : ℚ), (10 : ℚ)).1) /
          ((((2 : Nat), (3 : Nat)).1 : Nat) : ℚ) ∧ 0 < b.dx.1 ∧
        b.dx.2 = (((1 : ℚ), (20 : ℚ)).2 - ((0 : ℚ), (10 : ℚ)).2) /
          ((((2 : Nat), (3 : Nat)).2 : Nat) : ℚ) ∧ 0 < b.dx.2 ∧
        (∀ row ∈ b.bin, ∀ x ∈ row, x = 0) ∧
        b.Valid) :=
  ⟨construction_invariant.1 [0, 10] [1, 20] [2, 3] 2 (fun k => (k : ℚ) + 7) rfl rfl rfl
      (by intro i hi; interval_cases i <;> simp [rdu, UINT_RANGE])
      (by intro i hi; interval_cases i <;> norm_num [rd]),
    construction_invariant.2 3 (0, 10) (1, 20) (2, 3) (2, 0) (fun j k => (j : ℚ) - (k : ℚ))
      (by decide) (by decide)
      (by norm_num [UINT_RANGE]) (by norm_num [UINT_RANGE]) (by norm_num) (by norm_num)⟩

/-- C17, amended: for a `TBinner2D` whose grid has `width[0]` rows of `width[1]`
bins, `write_to_file` with `log_pdf=false` writes, in both encodings,
`width[0] * width[1]` values in row-major order with axis 0 as the outer index,
without log and without floor substitution.  In binary mode the values follow
the header and the value at position `j * width[1] + k` is `bin[j][k]`
unchanged.  In ascii mode the line at that position carries `bin[j][k]` and
the coordinates `lower_bound[0] + bin_width[0] * (j + 0.5)` and
`lower_bound[1] + bin_width[1] * (k + 0.5)` (computed in exact arithmetic),
each rounded to 6 significant decimal digits. -/
theorem write_2d_raw (N : Nat) (b : TBinner2D N) (log : ℚ → ℚ) (hs : b.Shaped) :
    b.write_to_file log true false = Output.ascii (b.ascii_lines log false) ∧
    b.write_to_file log false false =
      Output.binary (b.header ++ (b.out_values log false).map Field.f64) ∧
    (b.out_values log false).length = b.width.1 * b.width.2 ∧
    (b.ascii_lines log false).length = b.width.1 * b.width.2 ∧
    (b.ascii_lines log false).map (fun l => l.value) =
      (b.out_values log false).map (fun v => v.map print6) ∧
    ∀ j k, j < b.width.1 → k < b.width.2 →
      ∃ x, cell b.bin j k = some x ∧
        (b.out_values log false)[j * b.width.2 + k]? = some (some x) ∧
        (b.ascii_lines log false)[j * b.width.2 + k]? =
          some ⟨[print6 (b.min.1 + b.dx.1 * ((j : ℚ) + 1 / 2)),
              print6 (b.min.2 + b.dx.2 * ((k : ℚ) + 1 / 2))],
            some (print6 x)⟩ := by
  refine ⟨by simp [TBinner2D.write_to_file], by simp [TBinner2D.write_to_file],
    table_length _ _ _, table_length _ _ _, ?_, ?_⟩
  · simp [TBinner2D.ascii_lines, TBinner2D.out_values, List.map_flatten, Function.comp_def]
  · intro j k hj hk
    refine ⟨rd (b.bin.getD j []) k, cell_shaped hs j k hj hk, ?_, ?_⟩
    · unfold TBinner2D.out_values
      rw [table_get _ _ _ j k hj hk]
      simp [TBinner2D.out_value]
    · unfold TBinner2D.ascii_lines
      rw [table_get _ _ _ j k hj hk]
      simp [TBinner2D.out_value]

/-- Witness of C17: the 2 by 3 plane holding `1, 0, 0` and `0, 4, 0`. -/
theorem write_2d_raw_witness :
    plane_2x3.Shaped ∧
    ∀ log : ℚ → ℚ,
      (plane_2x3.out_values log false).length = plane_2x3.width.1 * plane_2x3.width.2 ∧
      ∀ j k, j < plane_2x3.width.1 → k < plane_2x3.width.2 →
        ∃ x, cell plane_2x3.bin j k = some x ∧
          (plane_2x3.out_values log false)[j * plane_2x3.width.2 + k]? = some (some x) ∧
          (plane_2x3.ascii_lines log false)[j * plane_2x3.width.2 + k]? =
            some ⟨[print6 (plane_2x3.min.1 + plane_2x3.dx.1 * ((j : ℚ) + 1 / 2)),
              print6 (plane_2x3.min.2 + plane_2x3.dx.2 * ((k : ℚ) + 1 / 2))],
              some (print6 x)⟩ :=
  ⟨plane_2x3_shaped, fun log =>
    ⟨(write_2d_raw 3 plane_2x3 log plane_2x3_shaped).2.2.1,
      (write_2d_raw 3 plane_2x3 log plane_2x3_shaped).2.2.2.2.2⟩⟩

/-- C19: `TBinnerND::add_point` leaves the bounds, the bin widths, the dimension
count and the bin counts as they were, but an accepted point overwrites the
member `index_workspace` with its multi-index: on the 2 by 3 grid, whose
workspace holds `0, 0`, the point `(3/4, 199/10)` leaves `1, 2` there. -/
theorem add_point_overwrites_workspace :
    (∀ (b b' : TBinnerND) (pos : List ℚ) (w : ℚ), b.add_point pos w = some b' →
      b'.min = b.min ∧ b'.max = b.max ∧ b'.dx = b.dx ∧ b'.N = b.N ∧
      b'.bin.width = b.bin.width ∧
      (b.out_of_bounds pos = false → b.bin_index pos = some b'.index_workspace)) ∧
    grid_2x3.index_workspace = [0, 0] ∧
    ∃ b', grid_2x3.add_point [3 / 4, 199 / 10] (1 / 2) = some b' ∧
      b'.index_workspace = [1, 2] ∧ b'.index_workspace ≠ grid_2x3.index_workspace := by
  refine ⟨?_, rfl, ?_⟩
  · intro b b' pos w h
    unfold TBinnerND.add_point at h
    by_cases hob : b.out_of_bounds pos = true
    · simp only [hob, if_true, Option.some.injEq] at h
      subst h
      exact ⟨rfl, rfl, rfl, rfl, rfl, fun hf => by rw [hob] at hf; exact absurd hf (by simp)⟩
    · simp only [hob, if_false] at h
      cases hidx : b.bin_index pos with
      | none => simp [hidx] at h
      | some idx =>
        cases ha : b.bin.add_at idx w with
        | none => simp [hidx, ha] at h
        | some a' =>
          simp only [hidx, ha, Option.some_bind, Option.map_some', Option.some.injEq,
            Bool.false_eq_true, if_false] at h
          subst h
          exact ⟨rfl, rfl, rfl, rfl, (get_at_add_at ha).1, fun _ => rfl⟩
  · refine ⟨{ grid_2x3 with index_workspace := [1, 2]
                            bin := { width := [2, 3], element := [0, 0, 0, 0, 0, 1 / 2] } },
      ?_, rfl, by simp [grid_2x3]⟩
    norm_num [TBinnerND.add_point, grid_2x3, TBinnerND.out_of_bounds, TBinnerND.bin_index,
      all_defined, cast_quot, fdiv, to_uint, trunc, UINT_RANGE, rd, NDArray.add_at, in_range,
      flat_index, List.range_succ, show Int.toNat 2 = 2 from rfl]

/-- C15: for every accumulator state and every sequence of points and weights,
accumulating a permutation of the sequence by successive `add_point` calls
gives the same grid as accumulating the sequence in its order, and is
undefined exactly when that is.  For `TBinner2D` the whole accumulator is the
same; for `TBinnerND` everything but the index workspace is. -/
theorem add_points_order_independent :
    (∀ (b : TBinnerND) (l1 l2 : List (List ℚ × ℚ)), l1.Perm l2 →
      (b.add_points l1).map (fun b' => b'.bin) = (b.add_points l2).map (fun b' => b'.bin)) ∧
    (∀ (N : Nat) (b : TBinner2D N) (l1 l2 : List ((Fin N → ℚ) × ℚ)), l1.Perm l2 →
      b.add_points l1 = b.add_points l2) := by
  constructor
  · intro b l1 l2 hp
    rw [add_points_nd_eq_foldl, add_points_nd_eq_foldl]
    exact List.Perm.foldl_eq' hp (fun x _ y _ z => grid_step_comm b z x y) _
  · intro N b l1 l2 hp
    rw [add_points_2d_eq_foldl, add_points_2d_eq_foldl]
    refine List.Perm.foldl_eq' hp (fun x _ y _ z => ?_) _
    cases z with
    | none => rfl
    | some s => exact add_point_2d_comm s x y

/-- C20, amended: in exact arithmetic, on a constructed accumulator whose bins
are all zero, for every sequence of points and weights in which no point has
a coordinate equal to the upper bound of its axis, accumulating the sequence
with `add_point` is defined and leaves a grid whose bins sum to the sum of
the weights of the points that lie inside the bounds on every axis
(`lower_bound[i] <= pos[i] <= upper_bound[i]`, for `TBinner2D` on the two
selected coordinates).  This holds for `TBinnerND` and for `TBinner2D`. -/
theorem weight_conservation :
    (∀ (b : TBinnerND) (pts : List (List ℚ × ℚ)), b.Valid →
      (∀ x ∈ b.bin.element, x = 0) →
      (∀ pw ∈ pts, ∀ i < b.N, rd pw.1 i ≠ rd b.max i) →
      ∃ b', b.add_points pts = some b' ∧
        b'.bin.element.sum =
          ((pts.filter fun pw =>
              decide (∀ i < b.N, rd b.min i ≤ rd pw.1 i ∧ rd pw.1 i ≤ rd b.max i)).map
            fun pw => pw.2).sum) ∧
    (∀ (N : Nat) (b : TBinner2D N) (pts : List ((Fin N → ℚ) × ℚ)), b.Valid →
      (∀ row ∈ b.bin, ∀ x ∈ row, x = 0) →
      (∀ pw ∈ pts,
        (∀ p0, coord pw.1 b.bin_dim.1 = some p0 → p0 ≠ b.max.1) ∧
        (∀ p1, coord pw.1 b.bin_dim.2 = some p1 → p1 ≠ b.max.2)) →
      ∃ b', b.add_points pts = some b' ∧
        b'.bin.flatten.sum =
          ((pts.filter fun pw =>
              match coord pw.1 b.bin_dim.1, coord pw.1 b.bin_dim.2 with
              | some p0, some p1 =>
                decide (b.min.1 ≤ p0 ∧ p0 ≤ b.max.1 ∧ b.min.2 ≤ p1 ∧ p1 ≤ b.max.2)
              | _, _ => false).map
            fun pw => pw.2).sum) := by
  constructor
  · intro b pts hv hz hne
    obtain ⟨b', h1, h2⟩ := add_points_nd_sum pts b hv hne
    refine ⟨b', h1, ?_⟩
    have hf : (fun pw : List ℚ × ℚ =>
        decide (∀ i < b.N, rd b.min i ≤ rd pw.1 i ∧ rd pw.1 i ≤ rd b.max i)) =
        fun pw => !b.out_of_bounds pw.1 :=
      funext fun pw => inside_eq_not_out_of_bounds b pw.1
    rw [hf, h2, List.sum_eq_zero hz, zero_add]
  · intro N b pts hv hz hne
    obtain ⟨b', h1, h2⟩ := add_points_2d_sum pts b hv hne
    refine ⟨b', h1, ?_⟩
    have hzero : b.bin.flatten.sum = 0 := by
      apply List.sum_eq_zero
      intro x hx
      obtain ⟨row, hrow, hxr⟩ := List.mem_flatten.mp hx
      exact hz row hrow x hxr
    have hf : (fun pw : (Fin N → ℚ) × ℚ =>
        match coord pw.1 b.bin_dim.1, coord pw.1 b.bin_dim.2 with
        | some p0, some p1 =>
          decide (b.min.1 ≤ p0 ∧ p0 ≤ b.max.1 ∧ b.min.2 ≤ p1 ∧ p1 ≤ b.max.2)
        | _, _ => false) =
        fun pw => !b.out_of_bounds pw.1 :=
      funext fun pw => inside_2d_eq_not_out_of_bounds b pw.1 hv.axes.1 hv.axes.2
    rw [hf, h2, hzero, zero_add]

/-- Witness of C15: the three points of `points_2d` with the first two
exchanged, and the two samples of `samples_3d` exchanged. -/
theorem add_points_order_independent_witness :
    (points_2d.Perm [([1 / 2, 21], 7), ([3 / 4, 199 / 10], 1 / 2), ([1 / 4, 11], 3)] ∧
      (grid_2x3.add_points points_2d).map (fun b' => b'.bin) =
        (grid_2x3.add_points
          [([1 / 2, 21], 7), ([3 / 4, 199 / 10], 1 / 2), ([1 / 4, 11], 3)]).map
          (fun b' => b'.bin)) ∧
    (samples_3d.Perm [(![25, 5, 3 / 4], 7), (![199 / 10, 5, 3 / 4], 2)] ∧
      plane_2x3.add_points samples_3d =
        plane_2x3.add_points [(![25, 5, 3 / 4], 7), (![199 / 10, 5, 3 / 4], 2)]) :=
  ⟨⟨List.Perm.swap _ _ _,
      add_points_order_independent.1 grid_2x3 _ _ (List.Perm.swap _ _ _)⟩,
    ⟨List.Perm.swap _ _ _,
      add_points_order_independent.2 3 plane_2x3 _ _ (List.Perm.swap _ _ _)⟩⟩

theorem plane_empty_valid : plane_empty.Valid where
  shaped := by simp [TBinner2D.Shaped, plane_empty, plane_2x3]
  axes := by decide
  count_pos := by decide
  count_lt := by norm_num [plane_empty, plane_2x3, UINT_RANGE]
  ordered := by norm_num [plane_empty, plane_2x3]
  dx_eq := by norm_num [plane_empty, plane_2x3]

/-- Witness of C20: the points of `points_2d` on the empty 2 by 3 grid and the
samples of `samples_3d` on the empty 2 by 3 plane. -/
theorem weight_conservation_witness :
    (grid_2x3.Valid ∧ (∀ x ∈ grid_2x3.bin.element, x = 0) ∧
      (∀ pw ∈ points_2d, ∀ i < grid_2x3.N, rd pw.1 i ≠ rd grid_2x3.max i) ∧
      ∃ b', grid_2x3.add_points points_2d = some b' ∧
        b'.bin.element.sum =
          ((points_2d.filter fun pw =>
              decide (∀ i < grid_2x3.N,
                rd grid_2x3.min i ≤ rd pw.1 i ∧ rd pw.1 i ≤ rd grid_2x3.max i)).map
            fun pw => pw.2).sum) ∧
    (plane_empty.Valid ∧ (∀ row ∈ plane_empty.bin, ∀ x ∈ row, x = 0) ∧
      ∃ b', plane_empty.add_points samples_3d = some b' ∧
        b'.bin.flatten.sum =
          ((samples_3d.filter fun pw =>
              match coord pw.1 plane_empty.bin_dim.1, coord pw.1 plane_empty.bin_dim.2 with
              | some p0, some p1 =>
                decide (plane_empty.min.1 ≤ p0 ∧ p0 ≤ plane_empty.max.1 ∧
                  plane_empty.min.2 ≤ p1 ∧ p1 ≤ plane_empty.max.2)
              | _, _ => false).map
            fun pw => pw.2).sum) := by
  have hz : ∀ x ∈ grid_2x3.bin.element, x = 0 := by simp [grid_2x3]
  have hne : ∀ pw ∈ points_2d, ∀ i < grid_2x3.N, rd pw.1 i ≠ rd grid_2x3.max i := by
    intro pw hpw i hi
    have hi2 : i < 2 := hi
    simp only [points_2d, List.mem_cons, List.mem_singleton, List.not_mem_nil, or_false] at hpw
    rcases hpw with rfl | rfl | rfl <;> interval_cases i <;> norm_num [grid_2x3, rd]
  have hz2 : ∀ row ∈ plane_empty.bin, ∀ x ∈ row, x = 0 := by
    simp [plane_empty]
  have hne2 : ∀ pw ∈ samples_3d,
      (∀ p0, coord pw.1 plane_empty.bin_dim.1 = some p0 → p0 ≠ plane_empty.max.1) ∧
      (∀ p1, coord pw.1 plane_empty.bin_dim.2 = some p1 → p1 ≠ plane_empty.max.2) := by
    intro pw hpw
    simp only [samples_3d, List.mem_cons, List.mem_singleton, List.not_mem_nil, or_false] at hpw
    rcases hpw with rfl | rfl <;>
      constructor <;> intro p hp <;>
      simp [coord, plane_empty, plane_2x3] at hp <;> subst hp <;>
      norm_num [plane_empty, plane_2x3]
  exact ⟨⟨grid_2x3_valid, hz, hne, weight_conservation.1 grid_2x3 points_2d grid_2x3_valid hz hne⟩,
    plane_empty_valid, hz2,
    weight_conservation.2 3 plane_empty samples_3d plane_empty_valid hz2 hne2⟩

/-! ## Counterexamples with the arithmetic of doubles -/

/-- C3, counterexample: with the arithmetic of doubles, on the bin that holds
`1e16`, `add_point(p, 1)` followed by `add_point(p, 1)` leaves `1e16` in the
bin, because `1e16 + 1` rounds to `1e16`, whereas one `add_point(p, 1 + 1)`
leaves `1e16 + 2`. -/
theorem add_point_twice_rounds :
    fl 10000000000000000 = some 10000000000000000 ∧
    Fp.add 1 1 = some 2 ∧
    (Fp.add_point grid_big [1] 1).bind (fun b => Fp.add_point b [1] 1) = some grid_big ∧
    Fp.add_point grid_big [1] 2 =
      some { grid_big with bin := { width := [1], element := [10000000000000002] } } ∧
    grid_big.bin ≠ { width := [1], element := [10000000000000002] } := by
  refine ⟨fl_big, fp_add_one_one, ?_, ?_, ?_⟩
  · have h : Fp.add_point grid_big [1] 1 = some grid_big := by
      rw [add_point_big, fp_add_big_one]
      rfl
    rw [h, Option.some_bind, h]
  · rw [add_point_big, fp_add_big_two]
    rfl
  · simp [grid_big]

/-- C16, counterexample: with the arithmetic of doubles, the constructor called
with 2 bins on `[0, 5e-324]`, whose upper bound is above its lower bound,
gives the bin width 0: the quotient `5e-324 / 2` rounds to 0.  The bin width
is neither positive nor `(upper_bound - lower_bound) / axis_bin_count`. -/
theorem construction_bin_width_underflows :
    fl tiny = some tiny ∧
    (1 ≤ rdu [2] 0 ∧ rd [0] 0 < rd [tiny] 0) ∧
    ∀ garbage : Nat → ℚ, ∃ b, Fp.create [0] [tiny] [2] 1 garbage = some b ∧
      rd b.dx 0 = 0 ∧ rd b.dx 0 ≠ (rd [tiny] 0 - rd [0] 0) / (rdu [2] 0 : ℚ) :=
  ⟨fl_tiny, ⟨by simp [rdu], tiny_above⟩, fun garbage =>
    ⟨_, create_underflow tiny garbage fp_sub_tiny fp_div_tiny, by simp [rd],
      by simpa [rd] using tiny_width_ne⟩⟩

/-- C17, counterexample: on the 1 by 1 plane whose bin holds 1234567,
`write_to_file` with `log_pdf=false` writes the value 1234567 in binary mode,
and in ascii mode the text `1.23457e+06`, which is 1234570: the stream rounds
to 6 significant digits, so the value of the ascii line is not `bin[0][0]`
unchanged. -/
theorem write_2d_ascii_rounds :
    plane_big.Shaped ∧
    cell plane_big.bin 0 0 = some 1234567 ∧
    ∀ log : ℚ → ℚ,
      plane_big.out_values log false = [some 1234567] ∧
      (plane_big.ascii_lines log false).map (fun l => l.value) = [some 1234570] := by
  refine ⟨by simp [TBinner2D.Shaped, plane_big], by simp [cell, plane_big], fun log => ⟨?_, ?_⟩⟩
  · simp [TBinner2D.out_values, TBinner2D.out_value, plane_big, rd,
      show List.range 1 = [0] from rfl]
  · simp [TBinner2D.ascii_lines, TBinner2D.out_value, plane_big, rd, print6_1234567,
      show List.range 1 = [0] from rfl]

/-- C20, counterexample: with the arithmetic of doubles, on the freshly
constructed grid of 2 bins on `[0, 4]`, the points 3, 1, 1, 3 with the
weights 1, `1e16`, 1, 1 all lie inside the bounds, below the upper bound.
After accumulation the bins hold `1e16` and 2, because `1e16 + 1` rounds to
`1e16`: they sum to `1e16 + 2`, exactly and as doubles, whereas the weights
sum to `1e16 + 3`, and to `1e16` when they are added as doubles in the order
of the sequence. -/
theorem weight_sum_rounds :
    (∀ garbage : Nat → ℚ, Fp.create [0] [4] [2] 1 garbage = some grid_pair) ∧
    (∀ pw ∈ points_big, ∀ i < grid_pair.N,
      rd grid_pair.min i ≤ rd pw.1 i ∧ rd pw.1 i < rd grid_pair.max i) ∧
    ∃ b', Fp.add_points grid_pair points_big = some b' ∧
      b'.bin.element = [10000000000000000, 2] ∧
      b'.bin.element.sum = 10000000000000002 ∧
      Fp.sum_scan b'.bin.element 0 = some 10000000000000002 ∧
      (points_big.map fun pw => pw.2).sum = 10000000000000003 ∧
      Fp.sum_scan (points_big.map fun pw => pw.2) 0 = some 10000000000000000 :=
  ⟨create_pair, points_big_inside, _, add_points_big, rfl, pair_bins_exact_sum, pair_bins_sum,
    points_big_exact_sum, points_big_sum⟩

end Binner
